import Mathlib

/-!
Verification development for the coderlm indexing server.

The Rust source is shallowly embedded: the concurrent maps (`DashMap`,
`HashMap`) become association lists with a first-match `alookup`, hash sets
(`HashSet<String>`) become duplicate-free string lists, machine integers and
timestamps become `Nat`, and fallible operations return `Except String`.
External collaborators (the filesystem, the regex engine, tree-sitter, serde)
are passed in as explicit function parameters, mirroring exactly the calls the
code makes into them.
-/

set_option maxHeartbeats 1000000

/-- First-match lookup in an association list (the `get` of `DashMap`/`HashMap`). -/
def alookup {α : Type} (k : String) : List (String × α) → Option α
  | [] => none
  | (k', v) :: rest => if k' = k then some v else alookup k rest

/-- Pointwise update used by `ainsert`: rewrite any binding of `k` to `(k, v)`. -/
def updEntry {α : Type} (k : String) (v : α) (p : String × α) : String × α :=
  if p.1 = k then (k, v) else p

/-- Map/DashMap `insert`: replace the value at an existing key in place,
otherwise add a new binding. -/
def ainsert {α : Type} (k : String) (v : α) (m : List (String × α)) : List (String × α) :=
  if (alookup k m).isSome then m.map (updEntry k v) else (k, v) :: m

/-- Map/DashMap `remove`: drop every binding of the key. -/
def aremove {α : Type} (k : String) (m : List (String × α)) : List (String × α) :=
  m.filter (fun p => p.1 ≠ k)

/-- The key list of an association list. -/
def akeys {α : Type} (m : List (String × α)) : List String :=
  m.map (fun p => p.1)

/-- `HashSet<String>::insert`: add an element if absent. -/
def sinsert (x : String) (s : List String) : List String :=
  if x ∈ s then s else x :: s

/-- `HashSet<String>::remove`: drop an element. -/
def sremove (x : String) (s : List String) : List String :=
  s.filter (fun y => y ≠ x)

theorem akeys_nil {α : Type} : akeys ([] : List (String × α)) = [] := rfl

theorem akeys_cons {α : Type} (p : String × α) (m : List (String × α)) :
    akeys (p :: m) = p.1 :: akeys m := rfl

theorem mem_akeys {α : Type} {k : String} {m : List (String × α)} :
    k ∈ akeys m ↔ ∃ v, (k, v) ∈ m := by
  induction m with
  | nil => simp [akeys]
  | cons p rest ih =>
    obtain ⟨k', v'⟩ := p
    rw [akeys_cons, List.mem_cons, ih]
    constructor
    · rintro (rfl | ⟨v, hv⟩)
      · exact ⟨v', List.mem_cons_self _ _⟩
      · exact ⟨v, List.mem_cons_of_mem _ hv⟩
    · rintro ⟨v, hv⟩
      rcases List.mem_cons.mp hv with h | h
      · left
        exact (Prod.ext_iff.mp h).1
      · exact Or.inr ⟨v, h⟩

theorem alookup_eq_none {α : Type} (k : String) (m : List (String × α)) :
    alookup k m = none ↔ k ∉ akeys m := by
  induction m with
  | nil => simp [alookup, akeys]
  | cons p rest ih =>
    obtain ⟨k', v⟩ := p
    rw [akeys_cons, List.mem_cons]
    by_cases h : k' = k
    · subst h
      simp [alookup]
    · simp only [alookup, if_neg h]
      rw [ih]
      constructor
      · intro hk
        rintro (rfl | hm)
        · exact h rfl
        · exact hk hm
      · intro hk hm
        exact hk (Or.inr hm)

theorem alookup_isSome {α : Type} (k : String) (m : List (String × α)) :
    (alookup k m).isSome ↔ k ∈ akeys m := by
  rw [Option.isSome_iff_ne_none, not_iff_comm, ← alookup_eq_none]

theorem alookup_mem {α : Type} {k : String} {v : α} {m : List (String × α)}
    (h : alookup k m = some v) : (k, v) ∈ m := by
  induction m with
  | nil => simp [alookup] at h
  | cons p rest ih =>
    obtain ⟨k', v'⟩ := p
    by_cases hk : k' = k
    · subst hk
      simp [alookup] at h
      simp [h]
    · simp only [alookup, if_neg hk] at h
      exact List.mem_cons_of_mem _ (ih h)

theorem mem_alookup {α : Type} {k : String} {v : α} {m : List (String × α)}
    (hnd : (akeys m).Nodup) (h : (k, v) ∈ m) : alookup k m = some v := by
  induction m with
  | nil => simp at h
  | cons p rest ih =>
    obtain ⟨k', v'⟩ := p
    rw [akeys_cons, List.nodup_cons] at hnd
    rcases List.mem_cons.mp h with h1 | h1
    · rw [Prod.ext_iff] at h1
      obtain ⟨rfl, rfl⟩ := h1
      simp [alookup]
    · by_cases hk : k' = k
      · subst hk
        exact absurd (mem_akeys.mpr ⟨v, h1⟩) hnd.1
      · simp only [alookup, if_neg hk]
        exact ih hnd.2 h1

theorem updEntry_self {α : Type} (k : String) (v : α) (v' : α) :
    updEntry k v (k, v') = (k, v) := by
  simp [updEntry]

theorem updEntry_ne {α : Type} {k k' : String} (v : α) (v' : α) (h : k' ≠ k) :
    updEntry k v (k', v') = (k', v') := by
  simp [updEntry, h]

theorem alookup_cons_self {α : Type} (k : String) (v : α) (m : List (String × α)) :
    alookup k ((k, v) :: m) = some v := by
  simp [alookup]

theorem alookup_cons_ne {α : Type} {k k' : String} (v : α) (m : List (String × α))
    (h : k' ≠ k) : alookup k ((k', v) :: m) = alookup k m := by
  simp [alookup, h]

theorem map_update_id_of_not_mem {α : Type} {k : String} (v : α) {m : List (String × α)}
    (hk : k ∉ akeys m) : m.map (updEntry k v) = m := by
  induction m with
  | nil => rfl
  | cons p rest ih =>
    obtain ⟨k', v'⟩ := p
    rw [akeys_cons, List.mem_cons] at hk
    push_neg at hk
    have h1 : k' ≠ k := fun h => hk.1 h.symm
    rw [List.map_cons, updEntry_ne v v' h1, ih hk.2]

theorem alookup_map_update_self {α : Type} {k : String} (v : α) {m : List (String × α)}
    (h : (alookup k m).isSome) :
    alookup k (m.map (updEntry k v)) = some v := by
  induction m with
  | nil => simp [alookup] at h
  | cons p rest ih =>
    obtain ⟨k', v'⟩ := p
    by_cases hk : k' = k
    · subst hk
      rw [List.map_cons, updEntry_self, alookup_cons_self]
    · have h' : (alookup k rest).isSome := by
        rw [alookup_cons_ne v' rest hk] at h
        exact h
      rw [List.map_cons, updEntry_ne v v' hk, alookup_cons_ne v' _ hk]
      exact ih h'

theorem alookup_map_update_ne {α : Type} {k k' : String} (v : α) (m : List (String × α))
    (hne : k' ≠ k) :
    alookup k' (m.map (updEntry k v)) = alookup k' m := by
  induction m with
  | nil => rfl
  | cons p rest ih =>
    obtain ⟨k'', v''⟩ := p
    by_cases hk : k'' = k
    · subst hk
      rw [List.map_cons, updEntry_self, alookup_cons_ne v _ (Ne.symm hne),
        alookup_cons_ne v'' _ (Ne.symm hne)]
      exact ih
    · rw [List.map_cons, updEntry_ne v v'' hk]
      by_cases hk2 : k'' = k'
      · subst hk2
        rw [alookup_cons_self, alookup_cons_self]
      · rw [alookup_cons_ne v'' _ hk2, alookup_cons_ne v'' _ hk2]
        exact ih

theorem alookup_ainsert_self {α : Type} (k : String) (v : α) (m : List (String × α)) :
    alookup k (ainsert k v m) = some v := by
  unfold ainsert
  by_cases h : (alookup k m).isSome
  · rw [if_pos h]
    exact alookup_map_update_self v h
  · rw [if_neg h]
    exact alookup_cons_self k v m

theorem alookup_ainsert_ne {α : Type} {k k' : String} (v : α) (m : List (String × α))
    (hne : k' ≠ k) : alookup k' (ainsert k v m) = alookup k' m := by
  unfold ainsert
  by_cases h : (alookup k m).isSome
  · rw [if_pos h]
    exact alookup_map_update_ne v m hne
  · rw [if_neg h]
    exact alookup_cons_ne v m (Ne.symm hne)

theorem akeys_map_update {α : Type} (k : String) (v : α) (m : List (String × α)) :
    akeys (m.map (updEntry k v)) = akeys m := by
  induction m with
  | nil => rfl
  | cons p rest ih =>
    obtain ⟨k', v'⟩ := p
    by_cases hk : k' = k
    · subst hk
      rw [List.map_cons, updEntry_self, akeys_cons, akeys_cons, ih]
    · rw [List.map_cons, updEntry_ne v v' hk, akeys_cons, akeys_cons, ih]

theorem akeys_ainsert_of_mem {α : Type} {k : String} (v : α) {m : List (String × α)}
    (h : (alookup k m).isSome) : akeys (ainsert k v m) = akeys m := by
  unfold ainsert
  rw [if_pos h]
  exact akeys_map_update k v m

theorem length_ainsert_of_mem {α : Type} {k : String} (v : α) {m : List (String × α)}
    (h : (alookup k m).isSome) : (ainsert k v m).length = m.length := by
  unfold ainsert
  rw [if_pos h]
  exact List.length_map m _

theorem akeys_ainsert_nodup {α : Type} {k : String} (v : α) {m : List (String × α)}
    (hnd : (akeys m).Nodup) : (akeys (ainsert k v m)).Nodup := by
  by_cases h : (alookup k m).isSome
  · rw [akeys_ainsert_of_mem v h]
    exact hnd
  · unfold ainsert
    rw [if_neg h, akeys_cons, List.nodup_cons]
    refine ⟨?_, hnd⟩
    rw [← alookup_eq_none]
    exact Option.not_isSome_iff_eq_none.mp h

theorem ainsert_eq_self {α : Type} {k : String} {v : α} {m : List (String × α)}
    (hnd : (akeys m).Nodup) (h : alookup k m = some v) : ainsert k v m = m := by
  unfold ainsert
  rw [if_pos (by simp [h])]
  induction m with
  | nil => simp [alookup] at h
  | cons p rest ih =>
    obtain ⟨k', v'⟩ := p
    rw [akeys_cons, List.nodup_cons] at hnd
    by_cases hk : k' = k
    · subst hk
      rw [alookup_cons_self] at h
      have hv : v' = v := by injection h
      rw [List.map_cons, updEntry_self, ← hv, map_update_id_of_not_mem v' hnd.1]
    · rw [alookup_cons_ne v' rest hk] at h
      rw [List.map_cons, updEntry_ne v v' hk, ih hnd.2 h]

theorem mem_ainsert {α : Type} {k : String} {v : α} {m : List (String × α)} {p : String × α}
    (h : p ∈ ainsert k v m) : p = (k, v) ∨ (p ∈ m ∧ p.1 ≠ k) := by
  unfold ainsert at h
  by_cases hs : (alookup k m).isSome
  · rw [if_pos hs] at h
    obtain ⟨q, hq, hfq⟩ := List.mem_map.mp h
    obtain ⟨kq, vq⟩ := q
    by_cases hqk : kq = k
    · left
      subst hqk
      rw [updEntry_self] at hfq
      exact hfq.symm
    · right
      rw [updEntry_ne v vq hqk] at hfq
      exact ⟨hfq ▸ hq, hfq ▸ hqk⟩
  · rw [if_neg hs] at h
    rcases List.mem_cons.mp h with h1 | h1
    · exact Or.inl h1
    · right
      refine ⟨h1, fun hpk => ?_⟩
      have hk : k ∉ akeys m := by
        rw [← alookup_eq_none]
        exact Option.not_isSome_iff_eq_none.mp hs
      exact hk (mem_akeys.mpr ⟨p.2, by rw [← hpk]; exact h1⟩)

theorem mem_aremove {α : Type} {k : String} {m : List (String × α)} {p : String × α} :
    p ∈ aremove k m ↔ p ∈ m ∧ p.1 ≠ k := by
  simp [aremove, List.mem_filter]

theorem alookup_aremove_self {α : Type} (k : String) (m : List (String × α)) :
    alookup k (aremove k m) = none := by
  rw [alookup_eq_none]
  intro h
  obtain ⟨v, hv⟩ := mem_akeys.mp h
  exact (mem_aremove.mp hv).2 rfl

theorem aremove_cons_self {α : Type} (k : String) (v : α) (m : List (String × α)) :
    aremove k ((k, v) :: m) = aremove k m := by
  simp [aremove]

theorem aremove_cons_ne {α : Type} {k k' : String} (v : α) (m : List (String × α))
    (h : k' ≠ k) : aremove k ((k', v) :: m) = (k', v) :: aremove k m := by
  simp [aremove, h]

theorem alookup_aremove_ne {α : Type} {k k' : String} (m : List (String × α))
    (hne : k' ≠ k) : alookup k' (aremove k m) = alookup k' m := by
  induction m with
  | nil => rfl
  | cons p rest ih =>
    obtain ⟨k'', v''⟩ := p
    by_cases hk : k'' = k
    · subst hk
      rw [aremove_cons_self, ih, alookup_cons_ne v'' rest (Ne.symm hne)]
    · rw [aremove_cons_ne v'' rest hk]
      by_cases hk2 : k'' = k'
      · subst hk2
        rw [alookup_cons_self, alookup_cons_self]
      · rw [alookup_cons_ne v'' _ hk2, alookup_cons_ne v'' _ hk2]
        exact ih

theorem akeys_aremove_nodup {α : Type} (k : String) {m : List (String × α)}
    (hnd : (akeys m).Nodup) : (akeys (aremove k m)).Nodup := by
  have hsub : List.Sublist (aremove k m) m := List.filter_sublist m
  exact List.Nodup.sublist (List.Sublist.map _ hsub) hnd

theorem mem_sinsert {x y : String} {s : List String} :
    y ∈ sinsert x s ↔ y = x ∨ y ∈ s := by
  unfold sinsert
  by_cases h : x ∈ s
  · rw [if_pos h]
    constructor
    · exact Or.inr
    · rintro (rfl | hy)
      · exact h
      · exact hy
  · rw [if_neg h]
    exact List.mem_cons

theorem sinsert_of_mem {x : String} {s : List String} (h : x ∈ s) : sinsert x s = s := by
  simp [sinsert, h]

theorem mem_sremove {x y : String} {s : List String} :
    y ∈ sremove x s ↔ y ∈ s ∧ y ≠ x := by
  simp [sremove, List.mem_filter]

namespace Coderlm

/-! ## Data model (src/server/src/index/file_entry.rs, src/server/src/symbols/symbol.rs) -/

/-- `Language` from src/server/src/index/file_entry.rs. -/
inductive Language where
  | Rust | Python | TypeScript | JavaScript | Go | Java | C | Cpp | Ruby | Shell
  | Markdown | Json | Yaml | Toml | Html | Css | Sql | Other
deriving DecidableEq, Repr

/-- `Language::has_tree_sitter_support`. -/
def Language.has_tree_sitter_support : Language → Bool
  | .Rust | .Python | .TypeScript | .JavaScript | .Go => true
  | _ => false

/-- `FileMark` from src/server/src/index/file_entry.rs. -/
inductive FileMark where
  | Documentation | Ignore | Test | Config | Generated | Custom
deriving DecidableEq, Repr

/-- `FileMark::from_str`. -/
def FileMark.from_str (s : String) : Option FileMark :=
  match s.toLower with
  | "documentation" | "doc" | "docs" => some .Documentation
  | "ignore" => some .Ignore
  | "test" | "tests" => some .Test
  | "config" | "configuration" => some .Config
  | "generated" | "gen" => some .Generated
  | "custom" => some .Custom
  | _ => none

/-- `SymbolKind` from src/server/src/symbols/symbol.rs. -/
inductive SymbolKind where
  | Function | Method | Class | Struct | Enum | Trait | Interface | Constant
  | Variable | Type | Module | Import | Other
deriving DecidableEq, Repr

/-- `Symbol` from src/server/src/symbols/symbol.rs; byte and line ranges are
pairs of `Nat`. -/
structure Symbol where
  name : String
  kind : SymbolKind
  file : String
  byte_range : Nat × Nat
  line_range : Nat × Nat
  language : Language
  signature : String
  definition : Option String
  parent : Option String
deriving DecidableEq, Repr

/-- `FileEntry` from src/server/src/index/file_entry.rs; `size` and the
`modified` timestamp are `Nat`. -/
structure FileEntry where
  rel_path : String
  size : Nat
  modified : Nat
  language : Language
  definition : Option String
  marks : List FileMark
  symbols_extracted : Bool
deriving DecidableEq, Repr

/-! ## Symbol table (src/server/src/symbols/mod.rs) -/

/-- `SymbolTable`: primary store keyed by `file::name` plus the two secondary
indices. -/
structure SymbolTable where
  symbols : List (String × Symbol)
  by_name : List (String × List String)
  by_file : List (String × List String)
deriving DecidableEq, Repr

def SymbolTable.empty : SymbolTable := ⟨[], [], []⟩

/-- `SymbolTable::make_key`. -/
def SymbolTable.make_key (file name : String) : String :=
  file ++ "::" ++ name

/-- `SymbolTable::insert`: update both secondary indices
(`entry(..).or_insert_with(HashSet::new).insert(key)`), then upsert the
primary record. -/
def SymbolTable.insert (t : SymbolTable) (symbol : Symbol) : SymbolTable :=
  let key := SymbolTable.make_key symbol.file symbol.name
  { by_name := ainsert symbol.name (sinsert key ((alookup symbol.name t.by_name).getD [])) t.by_name
    by_file := ainsert symbol.file (sinsert key ((alookup symbol.file t.by_file).getD [])) t.by_file
    symbols := ainsert key symbol t.symbols }

/-- Body of the per-key loop of `SymbolTable::remove_file`: remove the primary
record and prune the name's secondary entry (dropping it when empty). -/
def SymbolTable.removeKey (t : SymbolTable) (key : String) : SymbolTable :=
  match alookup key t.symbols with
  | none => t
  | some sym =>
    let by_name :=
      match alookup sym.name t.by_name with
      | none => t.by_name
      | some s =>
        let s' := sremove key s
        if s'.isEmpty then aremove sym.name t.by_name
        else ainsert sym.name s' t.by_name
    { symbols := aremove key t.symbols
      by_name := by_name
      by_file := t.by_file }

/-- `SymbolTable::remove_file`. -/
def SymbolTable.remove_file (t : SymbolTable) (file : String) : SymbolTable :=
  match alookup file t.by_file with
  | none => t
  | some keys =>
    keys.foldl SymbolTable.removeKey
      { symbols := t.symbols, by_name := t.by_name, by_file := aremove file t.by_file }

/-- A symbol-table mutation, for stating "any sequence of insert/remove_file". -/
inductive TableOp where
  | ins (s : Symbol)
  | rmf (f : String)
deriving DecidableEq, Repr

def applyOp (t : SymbolTable) : TableOp → SymbolTable
  | .ins s => t.insert s
  | .rmf f => t.remove_file f

def applyOps (ops : List TableOp) : SymbolTable :=
  ops.foldl applyOp SymbolTable.empty

/-- The invariant claimed by the spec (I1 + I2): every primary key is in both
secondary index sets for its symbol, and every key in a secondary index
resolves to a live primary record. -/
def InvBasic (t : SymbolTable) : Prop :=
  (∀ p ∈ t.symbols, p.1 ∈ (alookup p.2.name t.by_name).getD [] ∧
      p.1 ∈ (alookup p.2.file t.by_file).getD []) ∧
  (∀ q ∈ t.by_name, ∀ k ∈ q.2, (alookup k t.symbols).isSome) ∧
  (∀ q ∈ t.by_file, ∀ k ∈ q.2, (alookup k t.symbols).isSome)

instance (t : SymbolTable) : Decidable (InvBasic t) := by
  unfold InvBasic
  infer_instance

/-- Strengthened, inductive well-formedness of a symbol table: the basic
invariant, key coherence, index entries resolving to symbols with the matching
name/file, and duplicate-free key lists. -/
def TableWF (t : SymbolTable) : Prop :=
  (∀ p ∈ t.symbols, p.1 ∈ (alookup p.2.name t.by_name).getD [] ∧
      p.1 ∈ (alookup p.2.file t.by_file).getD []) ∧
  (∀ p ∈ t.symbols, p.1 = SymbolTable.make_key p.2.file p.2.name) ∧
  (∀ q ∈ t.by_name, ∀ k ∈ q.2, (alookup k t.symbols).map Symbol.name = some q.1) ∧
  (∀ q ∈ t.by_file, ∀ k ∈ q.2, (alookup k t.symbols).map Symbol.file = some q.1) ∧
  (akeys t.symbols).Nodup ∧ (akeys t.by_name).Nodup ∧ (akeys t.by_file).Nodup

instance (t : SymbolTable) : Decidable (TableWF t) := by
  unfold TableWF
  infer_instance

theorem tableWF_invBasic {t : SymbolTable} (h : TableWF t) : InvBasic t := by
  obtain ⟨h1, _, h3, h4, _⟩ := h
  refine ⟨h1, fun q hq k hk => ?_, fun q hq k hk => ?_⟩
  · have := h3 q hq k hk
    cases hl : alookup k t.symbols
    · rw [hl] at this
      simp at this
    · simp
  · have := h4 q hq k hk
    cases hl : alookup k t.symbols
    · rw [hl] at this
      simp at this
    · simp

end Coderlm

namespace Coderlm

theorem insert_symbols_eq (t : SymbolTable) (sym : Symbol) :
    (t.insert sym).symbols = ainsert (SymbolTable.make_key sym.file sym.name) sym t.symbols := rfl

theorem insert_by_name_eq (t : SymbolTable) (sym : Symbol) :
    (t.insert sym).by_name =
      ainsert sym.name
        (sinsert (SymbolTable.make_key sym.file sym.name) ((alookup sym.name t.by_name).getD []))
        t.by_name := rfl

theorem insert_by_file_eq (t : SymbolTable) (sym : Symbol) :
    (t.insert sym).by_file =
      ainsert sym.file
        (sinsert (SymbolTable.make_key sym.file sym.name) ((alookup sym.file t.by_file).getD []))
        t.by_file := rfl

/-- Key compatibility of a new symbol with the table contents: its rendered
`file::name` key does not collide with a differently-named stored symbol. -/
def InsertCompat (t : SymbolTable) (sym : Symbol) : Prop :=
  ∀ p ∈ t.symbols,
    SymbolTable.make_key p.2.file p.2.name = SymbolTable.make_key sym.file sym.name →
    p.2.file = sym.file ∧ p.2.name = sym.name

theorem insert_wf {t : SymbolTable} {sym : Symbol} (hwf : TableWF t)
    (hc : InsertCompat t sym) : TableWF (t.insert sym) := by
  obtain ⟨h1, h2, h3, h4, h5, h6, h7⟩ := hwf
  constructor
  · -- every primary key is in both index sets
    intro p hp
    rw [insert_symbols_eq] at hp
    rw [insert_by_name_eq, insert_by_file_eq]
    rcases mem_ainsert hp with rfl | ⟨hpm, hpk⟩
    · constructor
      · rw [alookup_ainsert_self]
        exact mem_sinsert.mpr (Or.inl rfl)
      · rw [alookup_ainsert_self]
        exact mem_sinsert.mpr (Or.inl rfl)
    · obtain ⟨hn, hf⟩ := h1 p hpm
      constructor
      · by_cases hname : p.2.name = sym.name
        · rw [hname, alookup_ainsert_self]
          rw [hname] at hn
          exact mem_sinsert.mpr (Or.inr hn)
        · rw [alookup_ainsert_ne _ _ hname]
          exact hn
      · by_cases hfile : p.2.file = sym.file
        · rw [hfile, alookup_ainsert_self]
          rw [hfile] at hf
          exact mem_sinsert.mpr (Or.inr hf)
        · rw [alookup_ainsert_ne _ _ hfile]
          exact hf
  constructor
  · -- key coherence
    intro p hp
    rw [insert_symbols_eq] at hp
    rcases mem_ainsert hp with rfl | ⟨hpm, _⟩
    · rfl
    · exact h2 p hpm
  constructor
  · -- by_name entries resolve to symbols with the matching name
    intro q hq k hk
    rw [insert_by_name_eq] at hq
    rw [insert_symbols_eq]
    rcases mem_ainsert hq with rfl | ⟨hqm, hqk⟩
    · rcases mem_sinsert.mp hk with rfl | hks
      · rw [alookup_ainsert_self]
        rfl
      · cases hs0 : alookup sym.name t.by_name with
        | none =>
          rw [hs0] at hks
          simp at hks
        | some s0 =>
          rw [hs0] at hks
          simp only [Option.getD_some] at hks
          have hres := h3 (sym.name, s0) (alookup_mem hs0) k hks
          by_cases hkK : k = SymbolTable.make_key sym.file sym.name
          · rw [hkK, alookup_ainsert_self]
            rfl
          · rw [alookup_ainsert_ne _ _ hkK]
            exact hres
    · have hres := h3 q hqm k hk
      by_cases hkK : k = SymbolTable.make_key sym.file sym.name
      · exfalso
        subst hkK
        cases hl : alookup (SymbolTable.make_key sym.file sym.name) t.symbols with
        | none =>
          rw [hl] at hres
          simp at hres
        | some sym0 =>
          rw [hl] at hres
          simp at hres
          have hmem := alookup_mem hl
          have hco := h2 _ hmem
          have hfn := hc _ hmem (by rw [← hco])
          apply hqk
          rw [← hres]
          exact hfn.2
      · rw [alookup_ainsert_ne _ _ hkK]
        exact hres
  constructor
  · -- by_file entries resolve to symbols with the matching file
    intro q hq k hk
    rw [insert_by_file_eq] at hq
    rw [insert_symbols_eq]
    rcases mem_ainsert hq with rfl | ⟨hqm, hqk⟩
    · rcases mem_sinsert.mp hk with rfl | hks
      · rw [alookup_ainsert_self]
        rfl
      · cases hs0 : alookup sym.file t.by_file with
        | none =>
          rw [hs0] at hks
          simp at hks
        | some s0 =>
          rw [hs0] at hks
          simp only [Option.getD_some] at hks
          have hres := h4 (sym.file, s0) (alookup_mem hs0) k hks
          by_cases hkK : k = SymbolTable.make_key sym.file sym.name
          · rw [hkK, alookup_ainsert_self]
            rfl
          · rw [alookup_ainsert_ne _ _ hkK]
            exact hres
    · have hres := h4 q hqm k hk
      by_cases hkK : k = SymbolTable.make_key sym.file sym.name
      · exfalso
        subst hkK
        cases hl : alookup (SymbolTable.make_key sym.file sym.name) t.symbols with
        | none =>
          rw [hl] at hres
          simp at hres
        | some sym0 =>
          rw [hl] at hres
          simp at hres
          have hmem := alookup_mem hl
          have hco := h2 _ hmem
          have hfn := hc _ hmem (by rw [← hco])
          apply hqk
          rw [← hres]
          exact hfn.1
      · rw [alookup_ainsert_ne _ _ hkK]
        exact hres
  refine ⟨?_, ?_, ?_⟩
  · rw [insert_symbols_eq]
    exact akeys_ainsert_nodup _ h5
  · rw [insert_by_name_eq]
    exact akeys_ainsert_nodup _ h6
  · rw [insert_by_file_eq]
    exact akeys_ainsert_nodup _ h7

end Coderlm

namespace Coderlm

/-- Invariant carried through the per-key removal loop of `remove_file`:
`f` is the file being removed, `ks` the keys still pending removal. -/
def RemInv (f : String) (ks : List String) (t : SymbolTable) : Prop :=
  (∀ p ∈ t.symbols, p.1 ∈ (alookup p.2.name t.by_name).getD [] ∧
      (p.1 ∈ (alookup p.2.file t.by_file).getD [] ∨ (p.2.file = f ∧ p.1 ∈ ks))) ∧
  (∀ p ∈ t.symbols, p.1 = SymbolTable.make_key p.2.file p.2.name) ∧
  (∀ q ∈ t.by_name, ∀ k ∈ q.2, (alookup k t.symbols).map Symbol.name = some q.1) ∧
  (∀ q ∈ t.by_file, ∀ k ∈ q.2, (alookup k t.symbols).map Symbol.file = some q.1) ∧
  (akeys t.symbols).Nodup ∧ (akeys t.by_name).Nodup ∧ (akeys t.by_file).Nodup ∧
  alookup f t.by_file = none ∧
  (∀ k ∈ ks, ∀ q ∈ t.by_file, k ∉ q.2)

theorem removeKey_eq_absent (t : SymbolTable) (k : String)
    (h : alookup k t.symbols = none) : t.removeKey k = t := by
  unfold SymbolTable.removeKey
  rw [h]

theorem removeKey_eq_noname (t : SymbolTable) (k : String) (sym : Symbol)
    (hlk : alookup k t.symbols = some sym)
    (hs : alookup sym.name t.by_name = none) :
    t.removeKey k = ⟨aremove k t.symbols, t.by_name, t.by_file⟩ := by
  unfold SymbolTable.removeKey
  rw [hlk]
  dsimp only
  rw [hs]

theorem removeKey_eq_found (t : SymbolTable) (k : String) (sym : Symbol) (s : List String)
    (hlk : alookup k t.symbols = some sym)
    (hs : alookup sym.name t.by_name = some s) :
    t.removeKey k =
      ⟨aremove k t.symbols,
        if (sremove k s).isEmpty then aremove sym.name t.by_name
        else ainsert sym.name (sremove k s) t.by_name,
        t.by_file⟩ := by
  unfold SymbolTable.removeKey
  rw [hlk]
  dsimp only
  rw [hs]

theorem remInv_step {f : String} {k : String} {ks : List String} {t : SymbolTable}
    (h : RemInv f (k :: ks) t) : RemInv f ks (t.removeKey k) := by
  obtain ⟨r1, r2, r3, r4, r5, r6, r7, r8, r9⟩ := h
  cases hlk : alookup k t.symbols with
  | none =>
    -- the key is absent: the table is unchanged, only the pending list shrinks
    rw [removeKey_eq_absent t k hlk]
    refine ⟨?_, r2, r3, r4, r5, r6, r7, r8, ?_⟩
    · intro p hp
      obtain ⟨hn, hf⟩ := r1 p hp
      refine ⟨hn, ?_⟩
      rcases hf with hf | ⟨hpf, hpk⟩
      · exact Or.inl hf
      · rcases List.mem_cons.mp hpk with rfl | hpk'
        · exact absurd (mem_akeys.mpr ⟨p.2, hp⟩) ((alookup_eq_none _ _).mp hlk)
        · exact Or.inr ⟨hpf, hpk'⟩
    · intro k' hk' q hq
      exact r9 k' (List.mem_cons_of_mem _ hk') q hq
  | some sym =>
    cases hs : alookup sym.name t.by_name with
    | none =>
      exfalso
      have := (r1 (k, sym) (alookup_mem hlk)).1
      rw [hs] at this
      simp at this
    | some s =>
      have hmemN : (sym.name, s) ∈ t.by_name := alookup_mem hs
      rw [removeKey_eq_found t k sym s hlk hs]
      by_cases hE : (sremove k s).isEmpty
      -- case: the pruned name set is empty, the name entry is dropped
      · rw [if_pos hE]
        refine ⟨?_, ?_, ?_, ?_, ?_, ?_, ?_, ?_, ?_⟩
        · intro p hp
          obtain ⟨hpm, hpk⟩ := mem_aremove.mp hp
          obtain ⟨hn, hf⟩ := r1 p hpm
          constructor
          · by_cases hname : p.2.name = sym.name
            · exfalso
              rw [hname, hs] at hn
              simp only [Option.getD_some] at hn
              have hps : p.1 ∈ sremove k s := mem_sremove.mpr ⟨hn, hpk⟩
              rw [List.isEmpty_iff] at hE
              rw [hE] at hps
              simp at hps
            · rw [alookup_aremove_ne _ hname]
              exact hn
          · rcases hf with hf | ⟨hpf, hpk'⟩
            · exact Or.inl hf
            · rcases List.mem_cons.mp hpk' with h' | h'
              · exact absurd h' hpk
              · exact Or.inr ⟨hpf, h'⟩
        · intro p hp
          exact r2 p (mem_aremove.mp hp).1
        · intro q hq k' hk'
          obtain ⟨hqm, hqk⟩ := mem_aremove.mp hq
          have hres := r3 q hqm k' hk'
          have hne : k' ≠ k := by
            intro hkk
            subst hkk
            rw [hlk] at hres
            simp at hres
            exact hqk (by rw [← hres])
          rw [alookup_aremove_ne _ hne]
          exact hres
        · intro q hq k' hk'
          have hres := r4 q hq k' hk'
          have hne : k' ≠ k := by
            intro hkk
            subst hkk
            exact r9 k' (List.mem_cons_self _ _) q hq hk'
          rw [alookup_aremove_ne _ hne]
          exact hres
        · exact akeys_aremove_nodup _ r5
        · exact akeys_aremove_nodup _ r6
        · exact r7
        · exact r8
        · intro k' hk' q hq
          exact r9 k' (List.mem_cons_of_mem _ hk') q hq
      -- case: the pruned name set is nonempty, the entry is updated in place
      · rw [if_neg hE]
        refine ⟨?_, ?_, ?_, ?_, ?_, ?_, ?_, ?_, ?_⟩
        · intro p hp
          obtain ⟨hpm, hpk⟩ := mem_aremove.mp hp
          obtain ⟨hn, hf⟩ := r1 p hpm
          constructor
          · by_cases hname : p.2.name = sym.name
            · rw [hname, alookup_ainsert_self]
              rw [hname, hs] at hn
              simp only [Option.getD_some] at hn
              exact mem_sremove.mpr ⟨hn, hpk⟩
            · rw [alookup_ainsert_ne _ _ hname]
              exact hn
          · rcases hf with hf | ⟨hpf, hpk'⟩
            · exact Or.inl hf
            · rcases List.mem_cons.mp hpk' with h' | h'
              · exact absurd h' hpk
              · exact Or.inr ⟨hpf, h'⟩
        · intro p hp
          exact r2 p (mem_aremove.mp hp).1
        · intro q hq k' hk'
          rcases mem_ainsert hq with rfl | ⟨hqm, hqk⟩
          · have hk's : k' ∈ s ∧ k' ≠ k := mem_sremove.mp hk'
            have hres := r3 (sym.name, s) hmemN k' hk's.1
            rw [alookup_aremove_ne _ hk's.2]
            exact hres
          · have hres := r3 q hqm k' hk'
            have hne : k' ≠ k := by
              intro hkk
              subst hkk
              rw [hlk] at hres
              simp at hres
              exact hqk (by rw [← hres])
            rw [alookup_aremove_ne _ hne]
            exact hres
        · intro q hq k' hk'
          have hres := r4 q hq k' hk'
          have hne : k' ≠ k := by
            intro hkk
            subst hkk
            exact r9 k' (List.mem_cons_self _ _) q hq hk'
          rw [alookup_aremove_ne _ hne]
          exact hres
        · exact akeys_aremove_nodup _ r5
        · exact akeys_ainsert_nodup _ r6
        · exact r7
        · exact r8
        · intro k' hk' q hq
          exact r9 k' (List.mem_cons_of_mem _ hk') q hq

theorem remInv_fold {f : String} (ks : List String) (t : SymbolTable)
    (h : RemInv f ks t) : RemInv f [] (ks.foldl SymbolTable.removeKey t) := by
  induction ks generalizing t with
  | nil => exact h
  | cons k ks ih =>
    rw [List.foldl_cons]
    exact ih _ (remInv_step h)

theorem remInv_init {t : SymbolTable} {file : String} {keys : List String}
    (hwf : TableWF t) (hlk : alookup file t.by_file = some keys) :
    RemInv file keys ⟨t.symbols, t.by_name, aremove file t.by_file⟩ := by
  obtain ⟨h1, h2, h3, h4, h5, h6, h7⟩ := hwf
  have hmemF : (file, keys) ∈ t.by_file := alookup_mem hlk
  refine ⟨?_, h2, h3, ?_, h5, h6, ?_, ?_, ?_⟩
  · intro p hp
    obtain ⟨hn, hf⟩ := h1 p hp
    refine ⟨hn, ?_⟩
    by_cases hfile : p.2.file = file
    · rw [hfile, hlk] at hf
      simp only [Option.getD_some] at hf
      exact Or.inr ⟨hfile, hf⟩
    · rw [alookup_aremove_ne _ hfile]
      exact Or.inl hf
  · intro q hq k hk
    exact h4 q (mem_aremove.mp hq).1 k hk
  · exact akeys_aremove_nodup _ h7
  · exact alookup_aremove_self _ _
  · intro k hk q hq hkq
    obtain ⟨hqm, hqk⟩ := mem_aremove.mp hq
    have hres1 := h4 q hqm k hkq
    have hres2 := h4 (file, keys) hmemF k hk
    rw [hres2] at hres1
    exact hqk (by injection hres1 with h'; exact h'.symm)

theorem remInv_final {f : String} {t : SymbolTable} (h : RemInv f [] t) : TableWF t := by
  obtain ⟨r1, r2, r3, r4, r5, r6, r7, _, _⟩ := h
  refine ⟨?_, r2, r3, r4, r5, r6, r7⟩
  intro p hp
  obtain ⟨hn, hf⟩ := r1 p hp
  refine ⟨hn, ?_⟩
  rcases hf with hf | ⟨_, hk⟩
  · exact hf
  · simp at hk

theorem remove_file_wf {t : SymbolTable} (file : String) (hwf : TableWF t) :
    TableWF (t.remove_file file) := by
  unfold SymbolTable.remove_file
  cases hlk : alookup file t.by_file with
  | none => exact hwf
  | some keys =>
    exact remInv_final (remInv_fold keys _ (remInv_init hwf hlk))

end Coderlm

namespace Coderlm

theorem symbolTable_ext {a b : SymbolTable} (h1 : a.symbols = b.symbols)
    (h2 : a.by_name = b.by_name) (h3 : a.by_file = b.by_file) : a = b := by
  cases a
  cases b
  simp_all

theorem removeKey_symbols_cases (t : SymbolTable) (k : String) :
    (t.removeKey k).symbols = t.symbols ∨ (t.removeKey k).symbols = aremove k t.symbols := by
  cases hlk : alookup k t.symbols with
  | none =>
    rw [removeKey_eq_absent t k hlk]
    exact Or.inl rfl
  | some sym =>
    cases hs : alookup sym.name t.by_name with
    | none =>
      rw [removeKey_eq_noname t k sym hlk hs]
      exact Or.inr rfl
    | some s =>
      rw [removeKey_eq_found t k sym s hlk hs]
      exact Or.inr rfl

theorem foldl_removeKey_symbols_sub {p : String × Symbol} (ks : List String)
    (t : SymbolTable) (hp : p ∈ (ks.foldl SymbolTable.removeKey t).symbols) :
    p ∈ t.symbols := by
  induction ks generalizing t with
  | nil => exact hp
  | cons k ks ih =>
    rw [List.foldl_cons] at hp
    have := ih _ hp
    rcases removeKey_symbols_cases t k with hc | hc
    · rw [hc] at this
      exact this
    · rw [hc] at this
      exact (mem_aremove.mp this).1

theorem remove_file_symbols_sub {p : String × Symbol} {t : SymbolTable} {f : String}
    (hp : p ∈ (t.remove_file f).symbols) : p ∈ t.symbols := by
  revert hp
  unfold SymbolTable.remove_file
  cases hlk : alookup f t.by_file with
  | none => exact id
  | some keys =>
    intro hp
    exact foldl_removeKey_symbols_sub keys
      ⟨t.symbols, t.by_name, aremove f t.by_file⟩ hp

theorem foldl_removeKey_symbols_nodup (ks : List String) (t : SymbolTable)
    (hnd : (akeys t.symbols).Nodup) :
    (akeys (ks.foldl SymbolTable.removeKey t).symbols).Nodup := by
  induction ks generalizing t with
  | nil => exact hnd
  | cons k ks ih =>
    rw [List.foldl_cons]
    apply ih
    rcases removeKey_symbols_cases t k with hc | hc
    · rw [hc]
      exact hnd
    · rw [hc]
      exact akeys_aremove_nodup _ hnd

theorem remove_file_symbols_nodup {t : SymbolTable} (f : String)
    (hnd : (akeys t.symbols).Nodup) : (akeys (t.remove_file f).symbols).Nodup := by
  unfold SymbolTable.remove_file
  cases hlk : alookup f t.by_file with
  | none => exact hnd
  | some keys => exact foldl_removeKey_symbols_nodup keys _ hnd

/-- The symbols inserted by a list of operations. -/
def insSyms (ops : List TableOp) : List Symbol :=
  ops.filterMap (fun op => match op with | .ins s => some s | .rmf _ => none)

/-- The rendered `file::name` keys of the inserted symbols are collision-free:
equal keys only arise from equal `(file, name)` pairs. -/
def OpsCompat (ops : List TableOp) : Prop :=
  ∀ s₁ ∈ insSyms ops, ∀ s₂ ∈ insSyms ops,
    SymbolTable.make_key s₁.file s₁.name = SymbolTable.make_key s₂.file s₂.name →
    s₁.file = s₂.file ∧ s₁.name = s₂.name

instance (ops : List TableOp) : Decidable (OpsCompat ops) := by
  unfold OpsCompat
  infer_instance

theorem tableWF_empty : TableWF SymbolTable.empty := by
  refine ⟨?_, ?_, ?_, ?_, ?_, ?_, ?_⟩ <;> simp [SymbolTable.empty, akeys]

theorem foldl_applyOp_wf (syms : List Symbol)
    (hcompat : ∀ s₁ ∈ syms, ∀ s₂ ∈ syms,
      SymbolTable.make_key s₁.file s₁.name = SymbolTable.make_key s₂.file s₂.name →
      s₁.file = s₂.file ∧ s₁.name = s₂.name) :
    ∀ (ops : List TableOp) (t : SymbolTable),
      (∀ s, TableOp.ins s ∈ ops → s ∈ syms) →
      TableWF t → (∀ p ∈ t.symbols, p.2 ∈ syms) →
      TableWF (ops.foldl applyOp t) ∧ (∀ p ∈ (ops.foldl applyOp t).symbols, p.2 ∈ syms) := by
  intro ops
  induction ops with
  | nil =>
    intro t _ hwf hvals
    exact ⟨hwf, hvals⟩
  | cons op ops ih =>
    intro t hops hwf hvals
    rw [List.foldl_cons]
    cases op with
    | ins s =>
      have hsmem : s ∈ syms := hops s (List.mem_cons_self _ _)
      have hcomp : InsertCompat t s := by
        intro p hp hkey
        exact hcompat p.2 (hvals p hp) s hsmem hkey
      have hwf' : TableWF (t.insert s) := insert_wf hwf hcomp
      have hvals' : ∀ p ∈ (t.insert s).symbols, p.2 ∈ syms := by
        intro p hp
        rw [insert_symbols_eq] at hp
        rcases mem_ainsert hp with rfl | ⟨hpm, _⟩
        · exact hsmem
        · exact hvals p hpm
      exact ih _ (fun s' hs' => hops s' (List.mem_cons_of_mem _ hs')) hwf' hvals'
    | rmf f =>
      have hwf' : TableWF (t.remove_file f) := remove_file_wf f hwf
      have hvals' : ∀ p ∈ (t.remove_file f).symbols, p.2 ∈ syms := by
        intro p hp
        exact hvals p (remove_file_symbols_sub hp)
      exact ih _ (fun s' hs' => hops s' (List.mem_cons_of_mem _ hs')) hwf' hvals'

theorem applyOps_tableWF {ops : List TableOp} (hcompat : OpsCompat ops) :
    TableWF (applyOps ops) := by
  unfold applyOps
  refine (foldl_applyOp_wf (insSyms ops) hcompat ops SymbolTable.empty ?_ tableWF_empty ?_).1
  · intro s hs
    unfold insSyms
    rw [List.mem_filterMap]
    exact ⟨.ins s, hs, rfl⟩
  · intro p hp
    simp [SymbolTable.empty] at hp

end Coderlm

namespace Coderlm

/-- Symbol with file `a::b` and name `c`: its primary key renders as `a::b::c`. -/
def cexSym1 : Symbol :=
  ⟨"c", .Function, "a::b", (0, 0), (1, 1), .Rust, "fn c", none, none⟩

/-- Symbol with file `a` and name `b::c`: its primary key also renders as
`a::b::c`, colliding with `cexSym1`. -/
def cexSym2 : Symbol :=
  ⟨"b::c", .Function, "a", (0, 0), (1, 1), .Rust, "fn c", none, none⟩

/-- C1 (counterexample): the claimed invariant fails as stated.  Two distinct
`(file, name)` pairs can render to the same `file::name` primary key; after
inserting both and removing one file, both secondary indices keep a key that no
longer resolves in the primary store. -/
theorem c1_counterexample :
    ¬ InvBasic (applyOps [.ins cexSym1, .ins cexSym2, .rmf "a"]) := by
  decide

/-- C1 (amended): for every sequence of `insert`/`remove_file` operations from
the empty table whose inserted symbols have collision-free rendered keys
(`file::name` equality only from `(file, name)` equality — true in particular
whenever names and paths contain no `::`), the invariant holds: every primary
key is in the by-name set of its symbol's name and the by-file set of its
symbol's file, and every key in either secondary index resolves to a live
primary record.  Since every prefix of such a sequence again satisfies the
hypothesis, the invariant holds after each operation. -/
theorem c1_invariant_inserts_removes (ops : List TableOp) (hcompat : OpsCompat ops) :
    InvBasic (applyOps ops) :=
  tableWF_invBasic (applyOps_tableWF hcompat)

/-- An ordinary symbol (collision-free key) used by witnesses. -/
def wSym1 : Symbol :=
  ⟨"foo", .Function, "a.rs", (0, 10), (1, 1), .Rust, "fn foo", none, none⟩

/-- A second ordinary symbol used by witnesses. -/
def wSym2 : Symbol :=
  ⟨"bar", .Method, "b.rs", (4, 20), (2, 3), .Rust, "fn bar", none, some "T"⟩

/-- Witness for the amended C1 at a concrete operation sequence. -/
theorem c1_invariant_inserts_removes_witness :
    OpsCompat [.ins wSym1, .ins wSym2, .rmf "a.rs"] ∧
      InvBasic (applyOps [.ins wSym1, .ins wSym2, .rmf "a.rs"]) :=
  ⟨by decide, c1_invariant_inserts_removes _ (by decide)⟩

end Coderlm

namespace Coderlm

/-- Unconditional structural invariant: stored keys are the rendered
`file::name` of their symbol, and the primary key list is duplicate-free. -/
def CoherentND (t : SymbolTable) : Prop :=
  (∀ p ∈ t.symbols, p.1 = SymbolTable.make_key p.2.file p.2.name) ∧
  (akeys t.symbols).Nodup

theorem coherentND_insert {t : SymbolTable} (sym : Symbol) (h : CoherentND t) :
    CoherentND (t.insert sym) := by
  obtain ⟨hco, hnd⟩ := h
  constructor
  · intro p hp
    rw [insert_symbols_eq] at hp
    rcases mem_ainsert hp with rfl | ⟨hpm, _⟩
    · rfl
    · exact hco p hpm
  · rw [insert_symbols_eq]
    exact akeys_ainsert_nodup _ hnd

theorem coherentND_remove_file {t : SymbolTable} (f : String) (h : CoherentND t) :
    CoherentND (t.remove_file f) := by
  obtain ⟨hco, hnd⟩ := h
  exact ⟨fun p hp => hco p (remove_file_symbols_sub hp), remove_file_symbols_nodup f hnd⟩

theorem coherentND_applyOps (ops : List TableOp) : CoherentND (applyOps ops) := by
  unfold applyOps
  have : CoherentND SymbolTable.empty := by
    constructor
    · intro p hp
      simp [SymbolTable.empty] at hp
    · simp [SymbolTable.empty, akeys]
  generalize SymbolTable.empty = t at this ⊢
  induction ops generalizing t with
  | nil => exact this
  | cons op ops ih =>
    rw [List.foldl_cons]
    cases op with
    | ins s => exact ih _ (coherentND_insert s this)
    | rmf f => exact ih _ (coherentND_remove_file f this)

/-- C9: `insert` is an upsert keyed by `(file, name)`.  (a) If a record with
the same file and name exists (in a well-formed table), inserting replaces the
primary record, keeps the primary store's length, and leaves both secondary
indices unchanged.  (b) Inserting the same symbol twice yields the same table
as inserting it once.  (c) In any table reached by a sequence of operations
from empty, two stored symbols with the same file and the same name are the
same record. -/
theorem c9_insert_upsert :
    (∀ (t : SymbolTable) (sym old : Symbol), TableWF t →
      alookup (SymbolTable.make_key sym.file sym.name) t.symbols = some old →
      old.file = sym.file → old.name = sym.name →
      alookup (SymbolTable.make_key sym.file sym.name) (t.insert sym).symbols = some sym ∧
      (t.insert sym).symbols.length = t.symbols.length ∧
      (t.insert sym).by_name = t.by_name ∧
      (t.insert sym).by_file = t.by_file) ∧
    (∀ (t : SymbolTable) (sym : Symbol), TableWF t →
      (t.insert sym).insert sym = t.insert sym) ∧
    (∀ (ops : List TableOp), ∀ p ∈ (applyOps ops).symbols, ∀ q ∈ (applyOps ops).symbols,
      p.2.file = q.2.file → p.2.name = q.2.name → p.2 = q.2) := by
  refine ⟨?_, ?_, ?_⟩
  · intro t sym old hwf hold hf hn
    obtain ⟨h1, h2, h3, h4, h5, h6, h7⟩ := hwf
    have hmem := alookup_mem hold
    refine ⟨?_, ?_, ?_, ?_⟩
    · rw [insert_symbols_eq]
      exact alookup_ainsert_self _ _ _
    · rw [insert_symbols_eq]
      exact length_ainsert_of_mem _ (by simp [hold])
    · rw [insert_by_name_eq]
      have hK := (h1 _ hmem).1
      rw [hn] at hK
      cases hS : alookup sym.name t.by_name with
      | none =>
        rw [hS] at hK
        simp at hK
      | some S =>
        rw [hS] at hK
        simp only [Option.getD_some] at hK
        simp only [Option.getD_some]
        rw [sinsert_of_mem hK]
        exact ainsert_eq_self h6 hS
    · rw [insert_by_file_eq]
      have hK := (h1 _ hmem).2
      rw [hf] at hK
      cases hS : alookup sym.file t.by_file with
      | none =>
        rw [hS] at hK
        simp at hK
      | some S =>
        rw [hS] at hK
        simp only [Option.getD_some] at hK
        simp only [Option.getD_some]
        rw [sinsert_of_mem hK]
        exact ainsert_eq_self h7 hS
  · intro t sym hwf
    obtain ⟨_, _, _, _, h5, h6, h7⟩ := hwf
    apply symbolTable_ext
    · rw [insert_symbols_eq (t.insert sym)]
      apply ainsert_eq_self
      · rw [insert_symbols_eq]
        exact akeys_ainsert_nodup _ h5
      · rw [insert_symbols_eq]
        exact alookup_ainsert_self _ _ _
    · rw [insert_by_name_eq (t.insert sym)]
      have hlook : alookup sym.name (t.insert sym).by_name =
          some (sinsert (SymbolTable.make_key sym.file sym.name)
            ((alookup sym.name t.by_name).getD [])) := by
        rw [insert_by_name_eq]
        exact alookup_ainsert_self _ _ _
      rw [hlook]
      simp only [Option.getD_some]
      rw [sinsert_of_mem (mem_sinsert.mpr (Or.inl rfl))]
      apply ainsert_eq_self ?_ hlook
      rw [insert_by_name_eq]
      exact akeys_ainsert_nodup _ h6
    · rw [insert_by_file_eq (t.insert sym)]
      have hlook : alookup sym.file (t.insert sym).by_file =
          some (sinsert (SymbolTable.make_key sym.file sym.name)
            ((alookup sym.file t.by_file).getD [])) := by
        rw [insert_by_file_eq]
        exact alookup_ainsert_self _ _ _
      rw [hlook]
      simp only [Option.getD_some]
      rw [sinsert_of_mem (mem_sinsert.mpr (Or.inl rfl))]
      apply ainsert_eq_self ?_ hlook
      rw [insert_by_file_eq]
      exact akeys_ainsert_nodup _ h7
  · intro ops p hp q hq hf hn
    obtain ⟨hco, hnd⟩ := coherentND_applyOps ops
    obtain ⟨pk, pv⟩ := p
    obtain ⟨qk, qv⟩ := q
    simp only at hf hn ⊢
    have hkeq : pk = qk := by
      have e1 := hco _ hp
      have e2 := hco _ hq
      simp only at e1 e2
      rw [e1, e2, hf, hn]
    subst hkeq
    have l1 := mem_alookup hnd hp
    have l2 := mem_alookup hnd hq
    rw [l1] at l2
    exact Option.some.inj l2

/-- Witness for C9 at a concrete well-formed table. -/
theorem c9_insert_upsert_witness :
    TableWF (SymbolTable.empty.insert wSym1) ∧
      alookup (SymbolTable.make_key wSym1.file wSym1.name)
        (SymbolTable.empty.insert wSym1).symbols = some wSym1 ∧
      ((SymbolTable.empty.insert wSym1).insert wSym1).symbols.length =
        (SymbolTable.empty.insert wSym1).symbols.length ∧
      ((SymbolTable.empty.insert wSym1).insert wSym1).by_name =
        (SymbolTable.empty.insert wSym1).by_name ∧
      ((SymbolTable.empty.insert wSym1).insert wSym1).insert wSym1 =
        (SymbolTable.empty.insert wSym1).insert wSym1 := by
  have hwf : TableWF (SymbolTable.empty.insert wSym1) := by decide
  have hlk : alookup (SymbolTable.make_key wSym1.file wSym1.name)
      (SymbolTable.empty.insert wSym1).symbols = some wSym1 := by decide
  obtain ⟨ha, hb, hc⟩ := c9_insert_upsert
  have := ha (SymbolTable.empty.insert wSym1) wSym1 wSym1 hwf hlk (by decide) (by decide)
  exact ⟨hwf, this.1, this.2.1, this.2.2.1, hb _ _ hwf⟩

end Coderlm

namespace Coderlm

/-! ## File tree (src/server/src/index/file_tree.rs) and
define/redefine/mark (src/server/src/ops/structure.rs, symbol_ops.rs) -/

/-- `FileTree`: concurrent map from relative path to `FileEntry`. -/
structure FileTree where
  files : List (String × FileEntry)
deriving DecidableEq, Repr

def FileTree.empty : FileTree := ⟨[]⟩

/-- `FileTree::insert`: keyed by the entry's `rel_path`. -/
def FileTree.insert (t : FileTree) (entry : FileEntry) : FileTree :=
  ⟨ainsert entry.rel_path entry t.files⟩

/-- `FileTree::get`. -/
def FileTree.get (t : FileTree) (rel_path : String) : Option FileEntry :=
  alookup rel_path t.files

/-- `define_file` (src/server/src/ops/structure.rs): reject when a definition
already exists, otherwise set it.  Mutation of the entry under `get_mut` is
modelled by returning the updated tree. -/
def define_file (file_tree : FileTree) (file definition : String) :
    Except String FileTree :=
  match alookup file file_tree.files with
  | some entry =>
    if entry.definition.isSome then
      .error ("File '" ++ file ++ "' already has a definition. Use redefine to update it.")
    else
      .ok ⟨ainsert file { entry with definition := some definition } file_tree.files⟩
  | none => .error ("File '" ++ file ++ "' not found in index")

/-- `redefine_file`: overwrite unconditionally (when the file exists). -/
def redefine_file (file_tree : FileTree) (file definition : String) :
    Except String FileTree :=
  match alookup file file_tree.files with
  | some entry =>
    .ok ⟨ainsert file { entry with definition := some definition } file_tree.files⟩
  | none => .error ("File '" ++ file ++ "' not found in index")

/-- `mark_file`: append the parsed mark if not already present. -/
def mark_file (file_tree : FileTree) (file mark_str : String) :
    Except String FileTree :=
  match FileMark.from_str mark_str with
  | none => .error ("Unknown mark type: '" ++ mark_str ++
      "'. Valid: documentation, ignore, test, config, generated, custom")
  | some mark =>
    match alookup file file_tree.files with
    | some entry =>
      .ok ⟨ainsert file
        (if mark ∈ entry.marks then entry else { entry with marks := entry.marks ++ [mark] })
        file_tree.files⟩
    | none => .error ("File '" ++ file ++ "' not found in index")

/-- `define_symbol` (src/server/src/ops/symbol_ops.rs). -/
def define_symbol (symbol_table : SymbolTable) (symbol_name file definition : String) :
    Except String SymbolTable :=
  let key := SymbolTable.make_key file symbol_name
  match alookup key symbol_table.symbols with
  | some sym =>
    if sym.definition.isSome then
      .error ("Symbol '" ++ symbol_name ++ "' in '" ++ file ++
        "' already has a definition. Use redefine.")
    else
      .ok { symbol_table with
        symbols := ainsert key { sym with definition := some definition } symbol_table.symbols }
  | none => .error ("Symbol '" ++ symbol_name ++ "' not found in '" ++ file ++ "'")

/-- `redefine_symbol`. -/
def redefine_symbol (symbol_table : SymbolTable) (symbol_name file definition : String) :
    Except String SymbolTable :=
  let key := SymbolTable.make_key file symbol_name
  match alookup key symbol_table.symbols with
  | some sym =>
    .ok { symbol_table with
      symbols := ainsert key { sym with definition := some definition } symbol_table.symbols }
  | none => .error ("Symbol '" ++ symbol_name ++ "' not found in '" ++ file ++ "'")

/-- C7: for every existing entity (file in the File Tree or symbol in the
Symbol Table), `define` errors when a definition already exists and sets it
otherwise; `redefine` overwrites unconditionally and never rejects. -/
theorem c7_define_redefine :
    (∀ (ft : FileTree) (file d : String) (entry : FileEntry),
      alookup file ft.files = some entry →
      (entry.definition.isSome → ∃ msg, define_file ft file d = .error msg) ∧
      (entry.definition = none → ∃ ft', define_file ft file d = .ok ft' ∧
        alookup file ft'.files = some { entry with definition := some d })) ∧
    (∀ (ft : FileTree) (file d : String) (entry : FileEntry),
      alookup file ft.files = some entry →
      ∃ ft', redefine_file ft file d = .ok ft' ∧
        alookup file ft'.files = some { entry with definition := some d }) ∧
    (∀ (st : SymbolTable) (name file d : String) (sym : Symbol),
      alookup (SymbolTable.make_key file name) st.symbols = some sym →
      (sym.definition.isSome → ∃ msg, define_symbol st name file d = .error msg) ∧
      (sym.definition = none → ∃ st', define_symbol st name file d = .ok st' ∧
        alookup (SymbolTable.make_key file name) st'.symbols =
          some { sym with definition := some d })) ∧
    (∀ (st : SymbolTable) (name file d : String) (sym : Symbol),
      alookup (SymbolTable.make_key file name) st.symbols = some sym →
      ∃ st', redefine_symbol st name file d = .ok st' ∧
        alookup (SymbolTable.make_key file name) st'.symbols =
          some { sym with definition := some d }) := by
  refine ⟨?_, ?_, ?_, ?_⟩
  · intro ft file d entry h
    constructor
    · intro hdef
      simp only [define_file, h]
      rw [if_pos hdef]
      exact ⟨_, rfl⟩
    · intro hdef
      simp only [define_file, h]
      rw [if_neg (by rw [hdef]; simp)]
      exact ⟨_, rfl, alookup_ainsert_self _ _ _⟩
  · intro ft file d entry h
    simp only [redefine_file, h]
    exact ⟨_, rfl, alookup_ainsert_self _ _ _⟩
  · intro st name file d sym h
    constructor
    · intro hdef
      simp only [define_symbol, h]
      rw [if_pos hdef]
      exact ⟨_, rfl⟩
    · intro hdef
      simp only [define_symbol, h]
      rw [if_neg (by rw [hdef]; simp)]
      exact ⟨_, rfl, alookup_ainsert_self _ _ _⟩
  · intro st name file d sym h
    simp only [redefine_symbol, h]
    exact ⟨_, rfl, alookup_ainsert_self _ _ _⟩

/-- A concrete file entry used by witnesses. -/
def wEntry1 : FileEntry :=
  ⟨"a.rs", 12, 100, .Rust, none, [], false⟩

/-- Witness for C7 at concrete entities. -/
theorem c7_define_redefine_witness :
    (alookup "a.rs" (FileTree.empty.insert wEntry1).files = some wEntry1 ∧
      wEntry1.definition = none ∧
      (∃ ft', define_file (FileTree.empty.insert wEntry1) "a.rs" "core" = .ok ft' ∧
        alookup "a.rs" ft'.files = some { wEntry1 with definition := some "core" })) ∧
    (alookup (SymbolTable.make_key wSym1.file wSym1.name)
        (SymbolTable.empty.insert wSym1).symbols = some wSym1 ∧
      ∃ st', redefine_symbol (SymbolTable.empty.insert wSym1) wSym1.name wSym1.file "f" = .ok st' ∧
        alookup (SymbolTable.make_key wSym1.file wSym1.name) st'.symbols =
          some { wSym1 with definition := some "f" }) := by
  obtain ⟨hdf, hrf, hds, hrs⟩ := c7_define_redefine
  refine ⟨⟨by decide, by decide, ?_⟩, ⟨by decide, ?_⟩⟩
  · exact (hdf (FileTree.empty.insert wEntry1) "a.rs" "core" wEntry1 (by decide)).2 (by decide)
  · exact hrs (SymbolTable.empty.insert wSym1) wSym1.name wSym1.file "f" wSym1 (by decide)

end Coderlm

namespace Coderlm

/-! ## Annotations (src/server/src/ops/annotations.rs) -/

/-- `AnnotationData`; the three serde maps become association lists. -/
structure AnnotationData where
  file_definitions : List (String × String)
  file_marks : List (String × List String)
  symbol_definitions : List (String × String)
deriving DecidableEq, Repr

/-- The inner mark loop of `load_annotations`: parse each mark string and
append it to the entry's marks when valid and not already present (unknown
marks are skipped with a warning). -/
def applyMarksToEntry (entry : FileEntry) (marks : List String) : FileEntry :=
  marks.foldl
    (fun e ms =>
      match FileMark.from_str ms with
      | some mark => if mark ∈ e.marks then e else { e with marks := e.marks ++ [mark] }
      | none => e)
    entry

/-- `load_annotations`: the annotations file's contents (if it exists) and the
serde parser are explicit parameters; the function returns the parsed data and
the updated trees.  A missing file returns empty data and leaves both
structures untouched. -/
def load_annotations (file : Option String)
    (parse : String → Except String AnnotationData)
    (file_tree : FileTree) (symbol_table : SymbolTable) :
    Except String AnnotationData × FileTree × SymbolTable :=
  match file with
  | none => (.ok ⟨[], [], []⟩, file_tree, symbol_table)
  | some json =>
    match parse json with
    | .error e => (.error ("Failed to parse annotations: " ++ e), file_tree, symbol_table)
    | .ok data =>
      let files1 := data.file_definitions.foldl
        (fun fs pd =>
          match alookup pd.1 fs with
          | some entry => ainsert pd.1 { entry with definition := some pd.2 } fs
          | none => fs)
        file_tree.files
      let files2 := data.file_marks.foldl
        (fun fs pm =>
          match alookup pm.1 fs with
          | some entry => ainsert pm.1 (applyMarksToEntry entry pm.2) fs
          | none => fs)
        files1
      let syms1 := data.symbol_definitions.foldl
        (fun ss kv =>
          match alookup kv.1 ss with
          | some sym => ainsert kv.1 { sym with definition := some kv.2 } ss
          | none => ss)
        symbol_table.symbols
      (.ok data, ⟨files2⟩, { symbol_table with symbols := syms1 })

/-- C10: when no annotations file exists under the project root,
`load_annotations` succeeds, returns empty annotation data (empty file
definitions, file marks and symbol definitions), and leaves the File Tree and
the Symbol Table unchanged; a missing file is never an error. -/
theorem c10_load_annotations_missing_file
    (parse : String → Except String AnnotationData)
    (file_tree : FileTree) (symbol_table : SymbolTable) :
    load_annotations none parse file_tree symbol_table =
      (.ok ⟨[], [], []⟩, file_tree, symbol_table) := rfl

/-! ## Chunk indices (src/server/src/ops/content.rs, `chunk_indices`) -/

/-- `ChunkInfo`; the source's `end` field is called `stop` (`end` is a Lean
keyword). -/
structure ChunkInfo where
  index : Nat
  start : Nat
  stop : Nat
deriving DecidableEq, Repr

structure ChunkIndicesResponse where
  file : String
  total_bytes : Nat
  chunk_size : Nat
  overlap : Nat
  chunks : List ChunkInfo
deriving DecidableEq, Repr

/-- The `while start < total_bytes` loop of `chunk_indices`.  The extra `fuel`
argument makes the recursion structural; callers pass `fuel = total`, which
bounds the iteration count since `start` grows by `step ≥ 1` each round. -/
def chunkLoop (total size step : Nat) : Nat → Nat → Nat → List ChunkInfo
  | 0, _, _ => []
  | fuel + 1, index, start =>
    if start < total then
      let e := min (start + size) total
      if total ≤ e then [⟨index, start, e⟩]
      else ⟨index, start, e⟩ :: chunkLoop total size step fuel (index + 1) (start + step)
    else []

/-- `chunk_indices`: validate `size > 0`, `overlap < size`, membership in the
File Tree, readability; then emit the windows. -/
def chunk_indices (file_tree : FileTree) (file : String) (contents : Option String)
    (size overlap : Nat) : Except String ChunkIndicesResponse :=
  if size = 0 then .error "Chunk size must be > 0"
  else if size ≤ overlap then .error "Overlap must be < chunk size"
  else if (file_tree.get file).isNone then .error ("File '" ++ file ++ "' not found in index")
  else
    match contents with
    | none => .error ("Failed to read '" ++ file ++ "'")
    | some source =>
      let total_bytes := source.length
      let step := size - overlap
      .ok ⟨file, total_bytes, size, overlap, chunkLoop total_bytes size step total_bytes 0 0⟩

theorem chunkLoop_zero (total size step index start : Nat) :
    chunkLoop total size step 0 index start = [] := rfl

theorem chunkLoop_succ (total size step fuel index start : Nat) :
    chunkLoop total size step (fuel + 1) index start =
      if start < total then
        if total ≤ min (start + size) total then
          [⟨index, start, min (start + size) total⟩]
        else
          ⟨index, start, min (start + size) total⟩ ::
            chunkLoop total size step fuel (index + 1) (start + step)
      else [] := rfl

theorem chunkLoop_indices (total size step : Nat) :
    ∀ (fuel index start : Nat),
      (chunkLoop total size step fuel index start).map ChunkInfo.index =
        List.range' index (chunkLoop total size step fuel index start).length := by
  intro fuel
  induction fuel with
  | zero =>
    intro index start
    rw [chunkLoop_zero]
    rfl
  | succ fuel ih =>
    intro index start
    rw [chunkLoop_succ]
    by_cases hlt : start < total
    · rw [if_pos hlt]
      by_cases hend : total ≤ min (start + size) total
      · rw [if_pos hend]
        rfl
      · rw [if_neg hend]
        rw [List.map_cons, ih (index + 1) (start + step)]
        rw [List.length_cons, List.range'_succ]
    · rw [if_neg hlt]
      rfl

theorem chunkLoop_mem (total size step : Nat) :
    ∀ (fuel index start : Nat), ∀ c ∈ chunkLoop total size step fuel index start,
      index ≤ c.index ∧ c.start = start + (c.index - index) * step ∧
        c.stop = min (c.start + size) total := by
  intro fuel
  induction fuel with
  | zero =>
    intro index start c hc
    rw [chunkLoop_zero] at hc
    simp at hc
  | succ fuel ih =>
    intro index start c hc
    rw [chunkLoop_succ] at hc
    by_cases hlt : start < total
    · rw [if_pos hlt] at hc
      by_cases hend : total ≤ min (start + size) total
      · rw [if_pos hend] at hc
        simp at hc
        subst hc
        simp
      · rw [if_neg hend] at hc
        rcases List.mem_cons.mp hc with rfl | hc'
        · simp
        · obtain ⟨hi, hs, he⟩ := ih (index + 1) (start + step) c hc'
          refine ⟨by omega, ?_, he⟩
          rw [hs]
          have : c.index - index = (c.index - (index + 1)) + 1 := by omega
          rw [this]
          ring
    · rw [if_neg hlt] at hc
      simp at hc

theorem chunkLoop_coverage (total size step : Nat) (hstep : 0 < step) (hss : step ≤ size) :
    ∀ (fuel index start : Nat), total - start ≤ fuel →
      ∀ b, start ≤ b → b < total →
        ∃ c ∈ chunkLoop total size step fuel index start, c.start ≤ b ∧ b < c.stop := by
  intro fuel
  induction fuel with
  | zero =>
    intro index start hfuel b hb1 hb2
    omega
  | succ fuel ih =>
    intro index start hfuel b hb1 hb2
    have hlt : start < total := by omega
    rw [chunkLoop_succ, if_pos hlt]
    by_cases hend : total ≤ min (start + size) total
    · rw [if_pos hend]
      refine ⟨_, List.mem_singleton_self _, hb1, ?_⟩
      simp only
      omega
    · rw [if_neg hend]
      have hsz : start + size < total := by omega
      by_cases hb3 : b < start + size
      · exact ⟨_, List.mem_cons_self _ _, hb1, by simp only; omega⟩
      · have hb4 : start + step ≤ b := by omega
        obtain ⟨c, hc, hcb⟩ := ih (index + 1) (start + step) (by omega) b hb4 hb2
        exact ⟨c, List.mem_cons_of_mem _ hc, hcb⟩

theorem chunkLoop_nil_iff (total size step : Nat) :
    ∀ (fuel index start : Nat), total - start ≤ fuel →
      (chunkLoop total size step fuel index start = [] ↔ total ≤ start) := by
  intro fuel
  induction fuel with
  | zero =>
    intro index start hfuel
    rw [chunkLoop_zero]
    constructor
    · intro _
      omega
    · intro _
      rfl
  | succ fuel _ =>
    intro index start _
    rw [chunkLoop_succ]
    by_cases hlt : start < total
    · rw [if_pos hlt]
      by_cases hend : total ≤ min (start + size) total
      · rw [if_pos hend]
        constructor
        · intro h
          simp at h
        · intro h
          omega
      · rw [if_neg hend]
        constructor
        · intro h
          simp at h
        · intro h
          omega
    · rw [if_neg hlt]
      constructor
      · intro _
        omega
      · intro _
        rfl

theorem getLastQ_cons_of_ne_nil {α : Type} (a : α) {l : List α} (h : l ≠ []) :
    (a :: l).getLast? = l.getLast? := by
  cases l with
  | nil => exact absurd rfl h
  | cons b t => rw [List.getLast?_cons_cons]

theorem chunkLoop_getLast (total size step : Nat) (hstep : 0 < step) (hss : step ≤ size) :
    ∀ (fuel index start : Nat), total - start ≤ fuel → start < total →
      ∃ c, (chunkLoop total size step fuel index start).getLast? = some c ∧ c.stop = total := by
  intro fuel
  induction fuel with
  | zero =>
    intro index start hfuel hlt
    omega
  | succ fuel ih =>
    intro index start hfuel hlt
    rw [chunkLoop_succ, if_pos hlt]
    by_cases hend : total ≤ min (start + size) total
    · rw [if_pos hend]
      refine ⟨_, rfl, ?_⟩
      show min (start + size) total = total
      omega
    · rw [if_neg hend]
      have hsz : start + size < total := by omega
      have hlt' : start + step < total := by omega
      obtain ⟨c, hc, hcs⟩ := ih (index + 1) (start + step) (by omega) hlt'
      have hne : chunkLoop total size step fuel (index + 1) (start + step) ≠ [] := by
        intro hnil
        rw [hnil] at hc
        simp at hc
      rw [getLastQ_cons_of_ne_nil _ hne]
      exact ⟨c, hc, hcs⟩

/-- C5: for every file in the File Tree whose contents read as a string of
length `L`, every `size > 0` and `overlap < size`, `chunk_indices` succeeds
and returns chunks indexed consecutively from 0 whose starts advance by
`size - overlap`, each chunk spanning at most `size`, together covering
`[0, L)`, with the last chunk ending exactly at `L`; calls with `size = 0` or
`overlap ≥ size` are rejected. -/
theorem c5_chunk_indices :
    (∀ (ft : FileTree) (file : String) (contents : Option String) (src : String)
      (size overlap : Nat), 0 < size → overlap < size →
      (ft.get file).isSome → contents = some src →
      ∃ resp, chunk_indices ft file contents size overlap = .ok resp ∧
        resp.chunks.map ChunkInfo.index = List.range resp.chunks.length ∧
        (∀ c ∈ resp.chunks, c.start = c.index * (size - overlap) ∧
          c.stop = min (c.start + size) src.length ∧ c.stop - c.start ≤ size) ∧
        (∀ b, b < src.length → ∃ c ∈ resp.chunks, c.start ≤ b ∧ b < c.stop) ∧
        (resp.chunks = [] ↔ src.length = 0) ∧
        (∀ c, resp.chunks.getLast? = some c → c.stop = src.length)) ∧
    (∀ (ft : FileTree) (file : String) (contents : Option String) (overlap : Nat),
      chunk_indices ft file contents 0 overlap = .error "Chunk size must be > 0") ∧
    (∀ (ft : FileTree) (file : String) (contents : Option String) (size overlap : Nat),
      0 < size → size ≤ overlap →
      chunk_indices ft file contents size overlap = .error "Overlap must be < chunk size") := by
  refine ⟨?_, ?_, ?_⟩
  · intro ft file contents src size overlap hsz hov hget hcon
    subst hcon
    have hstep : 0 < size - overlap := by omega
    have hss : size - overlap ≤ size := by omega
    have hnone : (ft.get file).isNone = false := by
      cases hg : ft.get file
      · rw [hg] at hget
        simp at hget
      · rfl
    refine ⟨⟨file, src.length, size, overlap,
        chunkLoop src.length size (size - overlap) src.length 0 0⟩, ?_, ?_, ?_, ?_, ?_, ?_⟩
    · unfold chunk_indices
      rw [if_neg (by omega), if_neg (by omega), hnone]
      simp
    · rw [chunkLoop_indices, List.range_eq_range']
    · intro c hc
      obtain ⟨_, hs, he⟩ := chunkLoop_mem src.length size (size - overlap) src.length 0 0 c hc
      have h1 : c.start = c.index * (size - overlap) := by
        rw [hs]
        simp
      have hmin : c.stop ≤ c.start + size := by
        rw [he]
        exact min_le_left _ _
      exact ⟨h1, he, by omega⟩
    · intro b hb
      exact chunkLoop_coverage src.length size (size - overlap) hstep hss src.length 0 0
        (by omega) b (Nat.zero_le b) hb
    · rw [chunkLoop_nil_iff src.length size (size - overlap) src.length 0 0 (by omega)]
      omega
    · intro c hc
      by_cases htot : src.length = 0
      · rw [(chunkLoop_nil_iff src.length size (size - overlap) src.length 0 0 (by omega)).mpr
          (by omega)] at hc
        simp at hc
      · obtain ⟨c', hc', hcs⟩ := chunkLoop_getLast src.length size (size - overlap) hstep hss
          src.length 0 0 (by omega) (by omega)
        rw [hc'] at hc
        injection hc with hc
        rw [← hc]
        exact hcs
  · intro ft file contents overlap
    unfold chunk_indices
    rw [if_pos rfl]
  · intro ft file contents size overlap hsz hov
    unfold chunk_indices
    rw [if_neg (by omega), if_pos hov]

/-- Witness for C5 at a concrete file and parameters. -/
theorem c5_chunk_indices_witness :
    (0 < 5 ∧ 2 < 5 ∧
      ((FileTree.empty.insert wEntry1).get "a.rs").isSome ∧
      ∃ resp,
        chunk_indices (FileTree.empty.insert wEntry1) "a.rs" (some "hello world!") 5 2 =
          .ok resp ∧
        ∀ b, b < ("hello world!").length → ∃ c ∈ resp.chunks, c.start ≤ b ∧ b < c.stop) ∧
    chunk_indices FileTree.empty "x" none 0 3 = .error "Chunk size must be > 0" ∧
    chunk_indices FileTree.empty "x" none 3 3 = .error "Overlap must be < chunk size" := by
  obtain ⟨hmain, herr0, herrov⟩ := c5_chunk_indices
  refine ⟨⟨by decide, by decide, by decide, ?_⟩, herr0 FileTree.empty "x" none 3,
    herrov FileTree.empty "x" none 3 3 (by decide) (by decide)⟩
  obtain ⟨resp, hr, _, _, hcov, _, _⟩ :=
    hmain (FileTree.empty.insert wEntry1) "a.rs" (some "hello world!") "hello world!" 5 2
      (by decide) (by decide) (by decide) rfl
  exact ⟨resp, hr, hcov⟩

end Coderlm

namespace Coderlm

/-! ## Peek (src/server/src/ops/content.rs, `peek`) -/

/-- One step of Rust `str::lines`: close the current (reversed) accumulator,
stripping one carriage return before a line feed. -/
def finishLine (acc : List Char) : String :=
  match acc with
  | '\r' :: acc' => String.mk acc'.reverse
  | _ => String.mk acc.reverse

/-- Split on `'\n'`, accumulating the current line in reverse. -/
def splitLinesAux : List Char → List Char → List String
  | [], acc => [String.mk acc.reverse]
  | c :: rest, acc =>
    if c = '\n' then finishLine acc :: splitLinesAux rest []
    else splitLinesAux rest (c :: acc)

/-- Rust `str::lines`: split at `\n`/`\r\n`; a final line ending produces no
trailing empty line. -/
def rustLines (s : String) : List String :=
  let parts := splitLinesAux s.data []
  if parts.getLast? = some "" then parts.dropLast else parts

/-- `format!("{:>6}", n)`: right-align in a field of width 6. -/
def padLeft6 (s : String) : String :=
  String.mk (List.replicate (6 - s.length) ' ') ++ s

/-- One rendered peek line: `format!("{:>6} │ {}", n, line)`. -/
def fmtLine (n : Nat) (line : String) : String :=
  padLeft6 (Nat.repr n) ++ " │ " ++ line

structure PeekResponse where
  file : String
  start_line : Nat
  end_line : Nat
  total_lines : Nat
  content : String
deriving DecidableEq, Repr

/-- `peek`; `stop` is the source's `end` parameter (`end` is a Lean keyword).
The result is `none` exactly when the Rust code panics: the slice
`lines[start..end]` aborts when (after clamping) `start > end`. -/
def peek (file_tree : FileTree) (file : String) (contents : Option String)
    (start stop : Nat) : Option (Except String PeekResponse) :=
  if (file_tree.get file).isNone then
    some (.error ("File '" ++ file ++ "' not found in index"))
  else
    match contents with
    | none => some (.error ("Failed to read '" ++ file ++ "'"))
    | some source =>
      let lines := rustLines source
      let total_lines := lines.length
      let start' := min start total_lines
      let stop' := min stop total_lines
      if start' ≤ stop' then
        let slice := (lines.drop start').take (stop' - start')
        let content := String.intercalate "\n"
          (slice.enum.map (fun p => fmtLine (start' + p.1 + 1) p.2))
        some (.ok ⟨file, start' + 1, stop', total_lines, content⟩)
      else none

/-- C6 (counterexample): the claim says `peek` never errors and never panics
for any window, including `start > end`; but on a 3-line file with
`start = 2, end = 1` the slice `lines[2..1]` panics (modelled as `none`). -/
theorem c6_counterexample :
    peek (FileTree.empty.insert wEntry1) "a.rs" (some "a\nb\nc") 2 1 = none := rfl

/-- C6 (amended): for every file present in the File Tree whose contents can
be read and every window with `start ≤ end`, `peek` succeeds with the slice
clamped against the total line count and 1-indexed line-number prefixes; it
fails (with an error, not a panic) exactly when the file is missing from the
File Tree or the read fails.  (The unrestricted claim is false: `start > end`
panics, see the counterexample.) -/
theorem c6_peek_clamped :
    (∀ (ft : FileTree) (file : String) (contents : Option String) (src : String)
      (start stop : Nat), (ft.get file).isSome → contents = some src → start ≤ stop →
      peek ft file contents start stop = some (.ok
        { file := file
          start_line := min start (rustLines src).length + 1
          end_line := min stop (rustLines src).length
          total_lines := (rustLines src).length
          content := String.intercalate "\n"
            ((((rustLines src).drop (min start (rustLines src).length)).take
                (min stop (rustLines src).length - min start (rustLines src).length)).enum.map
              (fun p => fmtLine (min start (rustLines src).length + p.1 + 1) p.2)) })) ∧
    (∀ (ft : FileTree) (file : String) (contents : Option String) (start stop : Nat),
      (ft.get file).isNone →
      peek ft file contents start stop =
        some (.error ("File '" ++ file ++ "' not found in index"))) ∧
    (∀ (ft : FileTree) (file : String) (start stop : Nat), (ft.get file).isSome →
      peek ft file none start stop =
        some (.error ("Failed to read '" ++ file ++ "'"))) := by
  refine ⟨?_, ?_, ?_⟩
  · intro ft file contents src start stop hget hcon hse
    subst hcon
    have hnone : (ft.get file).isNone = false := by
      cases hg : ft.get file
      · rw [hg] at hget
        simp at hget
      · rfl
    have hcl : min start (rustLines src).length ≤ min stop (rustLines src).length := by
      omega
    unfold peek
    rw [hnone]
    simp only [Bool.false_eq_true, if_false]
    rw [if_pos hcl]
  · intro ft file contents start stop hnone
    unfold peek
    rw [hnone]
    rfl
  · intro ft file start stop hget
    have hnone : (ft.get file).isNone = false := by
      cases hg : ft.get file
      · rw [hg] at hget
        simp at hget
      · rfl
    unfold peek
    rw [hnone]
    simp

/-- Witness for the amended C6 at a concrete file, including an out-of-range
window (`start`, `end` beyond the line count). -/
theorem c6_peek_clamped_witness :
    (((FileTree.empty.insert wEntry1).get "a.rs").isSome ∧ 1 ≤ 99 ∧
      peek (FileTree.empty.insert wEntry1) "a.rs" (some "a\nb\nc") 1 99 = some (.ok
        { file := "a.rs"
          start_line := min 1 (rustLines "a\nb\nc").length + 1
          end_line := min 99 (rustLines "a\nb\nc").length
          total_lines := (rustLines "a\nb\nc").length
          content := String.intercalate "\n"
            ((((rustLines "a\nb\nc").drop (min 1 (rustLines "a\nb\nc").length)).take
                (min 99 (rustLines "a\nb\nc").length -
                  min 1 (rustLines "a\nb\nc").length)).enum.map
              (fun p => fmtLine (min 1 (rustLines "a\nb\nc").length + p.1 + 1) p.2)) })) ∧
    peek FileTree.empty "nope" (some "x") 0 1 =
      some (.error ("File 'nope' not found in index")) := by
  obtain ⟨hmain, hmiss, _⟩ := c6_peek_clamped
  refine ⟨⟨by decide, by decide, ?_⟩, hmiss FileTree.empty "nope" (some "x") 0 1 (by decide)⟩
  exact hmain (FileTree.empty.insert wEntry1) "a.rs" (some "a\nb\nc") "a\nb\nc" 1 99
    (by decide) rfl (by decide)

end Coderlm

namespace Coderlm

/-! ## Cache save/load (src/server/src/ops/cache.rs) -/

/-- `IndexCache`: the serialized payload (version 1). -/
structure IndexCache where
  version : Nat
  file_entries : List (String × FileEntry)
  symbols : List (String × Symbol)
  symbols_by_name : List (String × List String)
  symbols_by_file : List (String × List String)
deriving DecidableEq, Repr

/-- `CacheLoadStats`. -/
structure CacheLoadStats where
  cached : Nat
  changed : Nat
  new : Nat
  deleted : Nat
  files_to_extract : List String
deriving DecidableEq, Repr

/-- `save_index`: snapshot the File Tree and Symbol Table into the cache
payload (the serialize/write round trip through bincode is external). -/
def save_index (file_tree : FileTree) (symbol_table : SymbolTable) : IndexCache :=
  ⟨1, file_tree.files, symbol_table.symbols, symbol_table.by_name, symbol_table.by_file⟩

/-- The per-path classification loop of `load_index`: `cached` paths copy the
cached entry, `changed`/`new` paths take the fresh entry and are queued for
re-extraction. -/
def processFresh (cacheEntries : List (String × FileEntry)) :
    List (String × FileEntry) → CacheLoadStats → FileTree → CacheLoadStats × FileTree
  | [], stats, tree => (stats, tree)
  | (rel_path, fresh_entry) :: rest, stats, tree =>
    match alookup rel_path cacheEntries with
    | some cached_entry =>
      if cached_entry.modified = fresh_entry.modified ∧ cached_entry.size = fresh_entry.size then
        processFresh cacheEntries rest
          { stats with cached := stats.cached + 1 } (tree.insert cached_entry)
      else
        processFresh cacheEntries rest
          { stats with
              changed := stats.changed + 1
              files_to_extract := stats.files_to_extract ++ [rel_path] }
          (tree.insert fresh_entry)
    | none =>
      processFresh cacheEntries rest
        { stats with
            new := stats.new + 1
            files_to_extract := stats.files_to_extract ++ [rel_path] }
        (tree.insert fresh_entry)

/-- `load_index`: version check, classification against a fresh walk
(`fresh_tree` is the walk's result, passed in since the walk is external),
deletion count, symbol population skipping stale files, and index rebuild
filtered against the primary store. -/
def load_index (cache : IndexCache) (fresh_tree : FileTree)
    (file_tree : FileTree) (symbol_table : SymbolTable) :
    Except String (CacheLoadStats × FileTree × SymbolTable) :=
  if cache.version ≠ 1 then
    .error ("Cache version mismatch: got " ++ Nat.repr cache.version ++ ", expected 1")
  else
    let pr := processFresh cache.file_entries fresh_tree.files ⟨0, 0, 0, 0, []⟩ file_tree
    let stats1 := pr.1
    let tree1 := pr.2
    let fresh_paths := akeys fresh_tree.files
    let deleted := ((akeys cache.file_entries).filter (fun p => p ∉ fresh_paths)).length
    let stats := { stats1 with deleted := deleted }
    let stale := stats.files_to_extract ++
      (akeys cache.file_entries).filter (fun p => p ∉ fresh_paths)
    let symbols1 := cache.symbols.foldl
      (fun acc kv => if kv.2.file ∈ stale then acc else ainsert kv.1 kv.2 acc)
      symbol_table.symbols
    let by_name1 := cache.symbols_by_name.foldl
      (fun acc nk =>
        let valid := nk.2.filter (fun k => (alookup k symbols1).isSome)
        if valid.isEmpty then acc else ainsert nk.1 valid acc)
      symbol_table.by_name
    let by_file1 := cache.symbols_by_file.foldl
      (fun acc fk =>
        if fk.1 ∈ stale then acc
        else
          let valid := fk.2.filter (fun k => (alookup k symbols1).isSome)
          if valid.isEmpty then acc else ainsert fk.1 valid acc)
      symbol_table.by_file
    .ok (stats, tree1, ⟨symbols1, by_name1, by_file1⟩)

end Coderlm

namespace Coderlm

theorem cacheLoadStats_ext {a b : CacheLoadStats} (h1 : a.cached = b.cached)
    (h2 : a.changed = b.changed) (h3 : a.new = b.new) (h4 : a.deleted = b.deleted)
    (h5 : a.files_to_extract = b.files_to_extract) : a = b := by
  cases a
  cases b
  simp_all

theorem processFresh_cons (cacheE : List (String × FileEntry)) (k : String)
    (fe : FileEntry) (rest : List (String × FileEntry)) (stats : CacheLoadStats)
    (tree : FileTree) :
    processFresh cacheE ((k, fe) :: rest) stats tree =
      match alookup k cacheE with
      | some cached_entry =>
        if cached_entry.modified = fe.modified ∧ cached_entry.size = fe.size then
          processFresh cacheE rest
            { stats with cached := stats.cached + 1 } (tree.insert cached_entry)
        else
          processFresh cacheE rest
            { stats with
                changed := stats.changed + 1
                files_to_extract := stats.files_to_extract ++ [k] }
            (tree.insert fe)
      | none =>
        processFresh cacheE rest
          { stats with
              new := stats.new + 1
              files_to_extract := stats.files_to_extract ++ [k] }
          (tree.insert fe) := rfl

/-- When every fresh entry has a cached entry with matching `(size, mtime)`,
the classification loop counts everything as cached, queues nothing, and the
tree receives exactly the cached entries of the walked paths. -/
theorem processFresh_all_cached (cacheE : List (String × FileEntry))
    (hwfC : ∀ kv ∈ cacheE, kv.2.rel_path = kv.1) :
    ∀ (fl : List (String × FileEntry)) (stats : CacheLoadStats) (tree : FileTree),
      (∀ kv ∈ fl, ∃ ce, alookup kv.1 cacheE = some ce ∧
        ce.modified = kv.2.modified ∧ ce.size = kv.2.size) →
      (processFresh cacheE fl stats tree).1 =
        { stats with cached := stats.cached + fl.length } ∧
      (∀ p, alookup p (processFresh cacheE fl stats tree).2.files =
        if p ∈ akeys fl then alookup p cacheE else alookup p tree.files) := by
  intro fl
  induction fl with
  | nil =>
    intro stats tree _
    constructor
    · exact cacheLoadStats_ext rfl rfl rfl rfl rfl
    · intro p
      rw [if_neg (by simp [akeys])]
      rfl
  | cons kv rest ih =>
    intro stats tree hm
    obtain ⟨k, fe⟩ := kv
    obtain ⟨ce, hce, hmod, hsz⟩ := hm (k, fe) (List.mem_cons_self _ _)
    have hrp : ce.rel_path = k := hwfC (k, ce) (alookup_mem hce)
    have hstep : processFresh cacheE ((k, fe) :: rest) stats tree =
        processFresh cacheE rest { stats with cached := stats.cached + 1 }
          (tree.insert ce) := by
      rw [processFresh_cons, hce]
      dsimp only
      rw [if_pos ⟨hmod, hsz⟩]
    rw [hstep]
    obtain ⟨ih1, ih2⟩ := ih { stats with cached := stats.cached + 1 } (tree.insert ce)
      (fun kv' hkv' => hm kv' (List.mem_cons_of_mem _ hkv'))
    constructor
    · rw [ih1]
      exact cacheLoadStats_ext (by simp; omega) rfl rfl rfl rfl
    · intro p
      rw [ih2 p]
      by_cases hpr : p ∈ akeys rest
      · rw [if_pos hpr, if_pos (by rw [akeys_cons]; exact List.mem_cons_of_mem _ hpr)]
      · rw [if_neg hpr]
        show alookup p (ainsert ce.rel_path ce tree.files) = _
        rw [hrp]
        by_cases hpk : p = k
        · subst hpk
          rw [alookup_ainsert_self, if_pos (by rw [akeys_cons]; exact List.mem_cons_self _ _)]
          exact hce.symm
        · rw [alookup_ainsert_ne _ _ hpk,
            if_neg (by rw [akeys_cons]; simpa using ⟨hpk, hpr⟩)]

/-- C2: on an unchanged filesystem (every walked path carries the same size
and mtime as the cached entry, and no cached path disappeared),
`load_index` after `save_index` succeeds, reproduces the pre-save File Tree
exactly (all fields of every File Record), and its stats report every walked
path as cached with zero changed, new and deleted and an empty
`files_to_extract`. -/
theorem c2_cache_roundtrip (tree0 : FileTree) (table0 : SymbolTable) (fresh : FileTree)
    (hwf0 : ∀ kv ∈ tree0.files, kv.2.rel_path = kv.1)
    (hmatch : ∀ kv ∈ fresh.files, ∃ ce, alookup kv.1 tree0.files = some ce ∧
      ce.modified = kv.2.modified ∧ ce.size = kv.2.size)
    (hall : ∀ p ∈ akeys tree0.files, p ∈ akeys fresh.files) :
    (∃ out, load_index (save_index tree0 table0) fresh FileTree.empty SymbolTable.empty =
      .ok out) ∧
    (∀ stats tree1 table1,
      load_index (save_index tree0 table0) fresh FileTree.empty SymbolTable.empty =
        .ok (stats, tree1, table1) →
      (∀ p, alookup p tree1.files = alookup p tree0.files) ∧
      stats.cached = fresh.files.length ∧ stats.changed = 0 ∧ stats.new = 0 ∧
      stats.deleted = 0 ∧ stats.files_to_extract = []) := by
  obtain ⟨hp1, hp2⟩ := processFresh_all_cached (save_index tree0 table0).file_entries hwf0
    fresh.files ⟨0, 0, 0, 0, []⟩ FileTree.empty hmatch
  have hpair : processFresh (save_index tree0 table0).file_entries fresh.files
      ⟨0, 0, 0, 0, []⟩ FileTree.empty =
      (⟨0 + fresh.files.length, 0, 0, 0, []⟩,
        (processFresh (save_index tree0 table0).file_entries fresh.files
          ⟨0, 0, 0, 0, []⟩ FileTree.empty).2) := by
    rw [← hp1]
  have hfilter : (akeys (save_index tree0 table0).file_entries).filter
      (fun p => p ∉ akeys fresh.files) = [] := by
    rw [List.filter_eq_nil_iff]
    intro p hp
    simp [hall p hp]
  have hload : load_index (save_index tree0 table0) fresh FileTree.empty SymbolTable.empty =
      .ok (⟨0 + fresh.files.length, 0, 0, 0, []⟩,
        (processFresh (save_index tree0 table0).file_entries fresh.files
          ⟨0, 0, 0, 0, []⟩ FileTree.empty).2,
        ⟨(save_index tree0 table0).symbols.foldl
            (fun acc kv => if kv.2.file ∈ ([] : List String) ++ [] then acc
              else ainsert kv.1 kv.2 acc) [],
          (save_index tree0 table0).symbols_by_name.foldl
            (fun acc nk =>
              let valid := nk.2.filter (fun k =>
                (alookup k ((save_index tree0 table0).symbols.foldl
                  (fun acc kv => if kv.2.file ∈ ([] : List String) ++ [] then acc
                    else ainsert kv.1 kv.2 acc) [])).isSome)
              if valid.isEmpty then acc else ainsert nk.1 valid acc) [],
          (save_index tree0 table0).symbols_by_file.foldl
            (fun acc fk =>
              if fk.1 ∈ ([] : List String) ++ [] then acc
              else
                let valid := fk.2.filter (fun k =>
                  (alookup k ((save_index tree0 table0).symbols.foldl
                    (fun acc kv => if kv.2.file ∈ ([] : List String) ++ [] then acc
                      else ainsert kv.1 kv.2 acc) [])).isSome)
                if valid.isEmpty then acc else ainsert fk.1 valid acc) []⟩) := by
    unfold load_index
    rw [if_neg (by simp [save_index])]
    rw [hpair]
    dsimp only
    rw [hfilter]
    rfl
  refine ⟨⟨_, hload⟩, ?_⟩
  intro stats tree1 table1 heq
  rw [hload] at heq
  have heq' := Except.ok.inj heq
  obtain ⟨h1, h2, _⟩ : (⟨0 + fresh.files.length, 0, 0, 0, []⟩ : CacheLoadStats) = stats ∧
      (processFresh (save_index tree0 table0).file_entries fresh.files
        ⟨0, 0, 0, 0, []⟩ FileTree.empty).2 = tree1 ∧ True := by
    rw [Prod.ext_iff] at heq'
    obtain ⟨ha, hb⟩ := heq'
    rw [Prod.ext_iff] at hb
    exact ⟨ha, hb.1, trivial⟩
  subst h1
  subst h2
  refine ⟨?_, by simp, rfl, rfl, rfl, rfl⟩
  intro p
  rw [hp2 p]
  by_cases hpf : p ∈ akeys fresh.files
  · rw [if_pos hpf]
    rfl
  · rw [if_neg hpf]
    show (none : Option FileEntry) = _
    cases hl : alookup p tree0.files with
    | none => rfl
    | some e =>
      exfalso
      exact hpf (hall p ((alookup_isSome p tree0.files).mp (by simp [hl])))

end Coderlm

namespace Coderlm

/-- `load_index` classification, path view: a current path is changed when both
sides have it but `(size, mtime)` differ. -/
def isChangedB (cacheE freshE : List (String × FileEntry)) (p : String) : Bool :=
  match alookup p freshE, alookup p cacheE with
  | some fe, some ce => decide (¬ (ce.modified = fe.modified ∧ ce.size = fe.size))
  | _, _ => false

/-- A cached path is deleted when it is absent from the fresh walk. -/
def isDeletedB (cacheE freshE : List (String × FileEntry)) (p : String) : Bool :=
  (alookup p cacheE).isSome && (alookup p freshE).isNone

/-- The queue of files to re-extract collects exactly the changed and new
walked paths, in walk order. -/
theorem processFresh_extract (cacheE : List (String × FileEntry)) :
    ∀ (fl : List (String × FileEntry)) (stats : CacheLoadStats) (tree : FileTree),
      (processFresh cacheE fl stats tree).1.files_to_extract =
        stats.files_to_extract ++ fl.filterMap (fun kv =>
          match alookup kv.1 cacheE with
          | some ce =>
            if ce.modified = kv.2.modified ∧ ce.size = kv.2.size then none else some kv.1
          | none => some kv.1) := by
  intro fl
  induction fl with
  | nil =>
    intro stats tree
    simp [processFresh]
  | cons kv rest ih =>
    intro stats tree
    obtain ⟨k, fe⟩ := kv
    cases hce : alookup k cacheE with
    | some ce =>
      by_cases hcond : ce.modified = fe.modified ∧ ce.size = fe.size
      · have hstep : processFresh cacheE ((k, fe) :: rest) stats tree =
            processFresh cacheE rest { stats with cached := stats.cached + 1 }
              (tree.insert ce) := by
          rw [processFresh_cons, hce]
          dsimp only
          rw [if_pos hcond]
        rw [hstep, ih]
        simp [List.filterMap_cons, hce, hcond]
      · have hstep : processFresh cacheE ((k, fe) :: rest) stats tree =
            processFresh cacheE rest
              { stats with
                  changed := stats.changed + 1
                  files_to_extract := stats.files_to_extract ++ [k] }
              (tree.insert fe) := by
          rw [processFresh_cons, hce]
          dsimp only
          rw [if_neg hcond]
        rw [hstep, ih]
        simp [List.filterMap_cons, hce, hcond]
    | none =>
      have hstep : processFresh cacheE ((k, fe) :: rest) stats tree =
          processFresh cacheE rest
            { stats with
                new := stats.new + 1
                files_to_extract := stats.files_to_extract ++ [k] }
            (tree.insert fe) := by
        rw [processFresh_cons, hce]
      rw [hstep, ih]
      simp [List.filterMap_cons, hce]

/-- The symbol-population fold leaves unrelated keys untouched. -/
theorem symsFold_lookup_not_mem (stale : List String) :
    ∀ (syms : List (String × Symbol)) (init : List (String × Symbol)) (p : String),
      p ∉ akeys syms →
      alookup p (syms.foldl
        (fun acc kv => if kv.2.file ∈ stale then acc else ainsert kv.1 kv.2 acc) init) =
        alookup p init := by
  intro syms
  induction syms with
  | nil =>
    intro init p _
    rfl
  | cons kv rest ih =>
    intro init p hp
    rw [akeys_cons, List.mem_cons] at hp
    push_neg at hp
    rw [List.foldl_cons]
    by_cases hst : kv.2.file ∈ stale
    · rw [if_pos hst]
      exact ih init p hp.2
    · rw [if_neg hst]
      rw [ih _ p hp.2]
      exact alookup_ainsert_ne _ _ hp.1

/-- A cached symbol whose file is not stale survives the population fold. -/
theorem symsFold_lookup_mem (stale : List String) :
    ∀ (syms : List (String × Symbol)) (init : List (String × Symbol)),
      (akeys syms).Nodup →
      ∀ kv ∈ syms, kv.2.file ∉ stale →
      alookup kv.1 (syms.foldl
        (fun acc kv => if kv.2.file ∈ stale then acc else ainsert kv.1 kv.2 acc) init) =
        some kv.2 := by
  intro syms
  induction syms with
  | nil =>
    intro init _ kv hkv
    simp at hkv
  | cons kv0 rest ih =>
    intro init hnd kv hkv hst
    rw [akeys_cons, List.nodup_cons] at hnd
    rw [List.foldl_cons]
    rcases List.mem_cons.mp hkv with rfl | hkv'
    · rw [if_neg hst]
      rw [symsFold_lookup_not_mem stale rest _ kv.1 hnd.1]
      exact alookup_ainsert_self _ _ _
    · by_cases hst0 : kv0.2.file ∈ stale
      · rw [if_pos hst0]
        exact ih init hnd.2 kv hkv' hst
      · rw [if_neg hst0]
        exact ih _ hnd.2 kv hkv' hst

/-- Provenance of entries of the symbol-population fold. -/
theorem symsFold_mem (stale : List String) :
    ∀ (syms : List (String × Symbol)) (init : List (String × Symbol))
      (q : String × Symbol),
      q ∈ syms.foldl
        (fun acc kv => if kv.2.file ∈ stale then acc else ainsert kv.1 kv.2 acc) init →
      q ∈ init ∨ ∃ kv ∈ syms, q.2 = kv.2 ∧ kv.2.file ∉ stale := by
  intro syms
  induction syms with
  | nil =>
    intro init q hq
    exact Or.inl hq
  | cons kv0 rest ih =>
    intro init q hq
    rw [List.foldl_cons] at hq
    by_cases hst0 : kv0.2.file ∈ stale
    · rw [if_pos hst0] at hq
      rcases ih init q hq with h | ⟨kv, hkv, he, hs⟩
      · exact Or.inl h
      · exact Or.inr ⟨kv, List.mem_cons_of_mem _ hkv, he, hs⟩
    · rw [if_neg hst0] at hq
      rcases ih _ q hq with h | ⟨kv, hkv, he, hs⟩
      · rcases mem_ainsert h with rfl | ⟨hm, _⟩
        · exact Or.inr ⟨kv0, List.mem_cons_self _ _, rfl, hst0⟩
        · exact Or.inl hm
      · exact Or.inr ⟨kv, List.mem_cons_of_mem _ hkv, he, hs⟩

/-- Provenance of entries of the by-name index rebuild fold. -/
theorem idxFoldName_mem (symbols1 : List (String × Symbol)) :
    ∀ (entries : List (String × List String)) (init : List (String × List String))
      (q : String × List String),
      q ∈ entries.foldl
        (fun acc nk =>
          let valid := nk.2.filter (fun k => (alookup k symbols1).isSome)
          if valid.isEmpty then acc else ainsert nk.1 valid acc) init →
      q ∈ init ∨ ∃ nk ∈ entries,
        q.2 = nk.2.filter (fun k => (alookup k symbols1).isSome) := by
  intro entries
  induction entries with
  | nil =>
    intro init q hq
    exact Or.inl hq
  | cons nk0 rest ih =>
    intro init q hq
    rw [List.foldl_cons] at hq
    dsimp only at hq
    by_cases hE : (nk0.2.filter (fun k => (alookup k symbols1).isSome)).isEmpty
    · rw [if_pos hE] at hq
      rcases ih init q hq with h | ⟨nk, hnk, he⟩
      · exact Or.inl h
      · exact Or.inr ⟨nk, List.mem_cons_of_mem _ hnk, he⟩
    · rw [if_neg hE] at hq
      rcases ih _ q hq with h | ⟨nk, hnk, he⟩
      · rcases mem_ainsert h with rfl | ⟨hm, _⟩
        · exact Or.inr ⟨nk0, List.mem_cons_self _ _, rfl⟩
        · exact Or.inl hm
      · exact Or.inr ⟨nk, List.mem_cons_of_mem _ hnk, he⟩

/-- Provenance of entries of the by-file index rebuild fold. -/
theorem idxFoldFile_mem (stale : List String) (symbols1 : List (String × Symbol)) :
    ∀ (entries : List (String × List String)) (init : List (String × List String))
      (q : String × List String),
      q ∈ entries.foldl
        (fun acc fk =>
          if fk.1 ∈ stale then acc
          else
            let valid := fk.2.filter (fun k => (alookup k symbols1).isSome)
            if valid.isEmpty then acc else ainsert fk.1 valid acc) init →
      q ∈ init ∨ ∃ fk ∈ entries,
        q.2 = fk.2.filter (fun k => (alookup k symbols1).isSome) := by
  intro entries
  induction entries with
  | nil =>
    intro init q hq
    exact Or.inl hq
  | cons fk0 rest ih =>
    intro init q hq
    rw [List.foldl_cons] at hq
    dsimp only at hq
    by_cases hsk : fk0.1 ∈ stale
    · rw [if_pos hsk] at hq
      rcases ih init q hq with h | ⟨fk, hfk, he⟩
      · exact Or.inl h
      · exact Or.inr ⟨fk, List.mem_cons_of_mem _ hfk, he⟩
    · rw [if_neg hsk] at hq
      by_cases hE : (fk0.2.filter (fun k => (alookup k symbols1).isSome)).isEmpty
      · rw [if_pos hE] at hq
        rcases ih init q hq with h | ⟨fk, hfk, he⟩
        · exact Or.inl h
        · exact Or.inr ⟨fk, List.mem_cons_of_mem _ hfk, he⟩
      · rw [if_neg hE] at hq
        rcases ih _ q hq with h | ⟨fk, hfk, he⟩
        · rcases mem_ainsert h with rfl | ⟨hm, _⟩
          · exact Or.inr ⟨fk0, List.mem_cons_self _ _, rfl⟩
          · exact Or.inl hm
        · exact Or.inr ⟨fk, List.mem_cons_of_mem _ hfk, he⟩

end Coderlm

namespace Coderlm

/-- The stale set computed by `load_index`: files queued for re-extraction
(changed and new) plus cached paths absent from the fresh walk (deleted). -/
def staleList (cache : IndexCache) (fresh : FileTree) : List String :=
  (processFresh cache.file_entries fresh.files ⟨0, 0, 0, 0, []⟩
    FileTree.empty).1.files_to_extract ++
  (akeys cache.file_entries).filter (fun p => p ∉ akeys fresh.files)

/-- For a path present in the cached file entries, staleness is exactly
"changed or deleted". -/
theorem staleList_iff (cache : IndexCache) (fresh : FileTree)
    (hndF : (akeys fresh.files).Nodup) (f : String)
    (hsome : (alookup f cache.file_entries).isSome) :
    f ∈ staleList cache fresh ↔
      (isChangedB cache.file_entries fresh.files f = true ∨
       isDeletedB cache.file_entries fresh.files f = true) := by
  unfold staleList
  rw [List.mem_append]
  have h1 : f ∈ (processFresh cache.file_entries fresh.files ⟨0, 0, 0, 0, []⟩
      FileTree.empty).1.files_to_extract ↔
      isChangedB cache.file_entries fresh.files f = true := by
    rw [processFresh_extract]
    show f ∈ [] ++ _ ↔ _
    rw [List.nil_append, List.mem_filterMap]
    constructor
    · rintro ⟨⟨k, fe⟩, hkv, hg⟩
      cases h2 : alookup k cache.file_entries with
      | some ce =>
        simp only [h2] at hg
        by_cases hcond : ce.modified = fe.modified ∧ ce.size = fe.size
        · rw [if_pos hcond] at hg
          exact absurd hg (by simp)
        · rw [if_neg hcond] at hg
          have hkf : k = f := by injection hg
          subst hkf
          have hfr : alookup k fresh.files = some fe := mem_alookup hndF hkv
          unfold isChangedB
          rw [hfr, h2]
          dsimp only
          rw [decide_eq_true_eq]
          exact hcond
      | none =>
        simp only [h2] at hg
        have hkf : k = f := by injection hg
        subst hkf
        rw [h2] at hsome
        simp at hsome
    · intro hch
      unfold isChangedB at hch
      cases hfr : alookup f fresh.files with
      | none =>
        rw [hfr] at hch
        simp at hch
      | some fe =>
        cases hca : alookup f cache.file_entries with
        | none =>
          rw [hfr, hca] at hch
          simp at hch
        | some ce =>
          rw [hfr, hca] at hch
          simp only [decide_eq_true_eq] at hch
          refine ⟨(f, fe), alookup_mem hfr, ?_⟩
          simp only [hca]
          rw [if_neg hch]
  have h2 : f ∈ (akeys cache.file_entries).filter (fun p => p ∉ akeys fresh.files) ↔
      isDeletedB cache.file_entries fresh.files f = true := by
    rw [List.mem_filter]
    unfold isDeletedB
    rw [Bool.and_eq_true]
    constructor
    · rintro ⟨hmem, hnot⟩
      simp only [decide_eq_true_eq] at hnot
      refine ⟨(alookup_isSome f cache.file_entries).mpr hmem, ?_⟩
      rw [Option.isNone_iff_eq_none, alookup_eq_none]
      exact hnot
    · rintro ⟨hs, hn⟩
      refine ⟨(alookup_isSome f cache.file_entries).mp hs, ?_⟩
      rw [Option.isNone_iff_eq_none, alookup_eq_none] at hn
      simpa using hn
  rw [h1, h2]

/-- C3: after a successful `load_index` into empty structures, the Symbol
Table holds every cached symbol except exactly those whose file is classified
changed or deleted, and every key of every rebuilt secondary-index entry
resolves to a symbol in the primary store.  The cache is assumed coherent as
`save_index` produces it: version 1, duplicate-free symbol keys, and every
cached symbol's file present in the cached file entries. -/
theorem c3_load_prunes_stale (cache : IndexCache) (fresh : FileTree)
    (hver : cache.version = 1)
    (hndF : (akeys fresh.files).Nodup)
    (hndS : (akeys cache.symbols).Nodup)
    (hsymwf : ∀ kv ∈ cache.symbols, (alookup kv.2.file cache.file_entries).isSome) :
    (∃ out, load_index cache fresh FileTree.empty SymbolTable.empty = .ok out) ∧
    (∀ stats tree1 table1,
      load_index cache fresh FileTree.empty SymbolTable.empty = .ok (stats, tree1, table1) →
      (∀ kv ∈ cache.symbols,
        isChangedB cache.file_entries fresh.files kv.2.file = false →
        isDeletedB cache.file_entries fresh.files kv.2.file = false →
        alookup kv.1 table1.symbols = some kv.2) ∧
      (∀ kv ∈ table1.symbols,
        isChangedB cache.file_entries fresh.files kv.2.file = false ∧
        isDeletedB cache.file_entries fresh.files kv.2.file = false) ∧
      (∀ q ∈ table1.by_name, ∀ k ∈ q.2, (alookup k table1.symbols).isSome) ∧
      (∀ q ∈ table1.by_file, ∀ k ∈ q.2, (alookup k table1.symbols).isSome)) := by
  have hcond : ¬ cache.version ≠ 1 := by simp [hver]
  constructor
  · cases hl : load_index cache fresh FileTree.empty SymbolTable.empty with
    | ok out => exact ⟨out, rfl⟩
    | error e =>
      unfold load_index at hl
      rw [if_neg hcond] at hl
      dsimp only at hl
      simp at hl
  · intro stats tree1 table1 heq
    unfold load_index at heq
    rw [if_neg hcond] at heq
    dsimp only at heq
    injection heq with h1
    injection h1 with hS h2
    injection h2 with hT hTBL
    refine ⟨?_, ?_, ?_, ?_⟩
    · intro kv hkv hch hdel
      have hns : kv.2.file ∉ staleList cache fresh := by
        rw [staleList_iff cache fresh hndF _ (hsymwf kv hkv)]
        simp [hch, hdel]
      have hl := symsFold_lookup_mem (staleList cache fresh) cache.symbols [] hndS kv hkv hns
      rw [← hTBL]
      exact hl
    · intro kv hkv
      rw [← hTBL] at hkv
      rcases symsFold_mem (staleList cache fresh) cache.symbols [] kv hkv with h | ⟨kv', hkv', he, hs⟩
      · simp at h
      · rw [staleList_iff cache fresh hndF _ (hsymwf kv' hkv')] at hs
        push_neg at hs
        rw [he]
        constructor
        · cases hb : isChangedB cache.file_entries fresh.files kv'.2.file
          · rfl
          · exact absurd hb hs.1
        · cases hb : isDeletedB cache.file_entries fresh.files kv'.2.file
          · rfl
          · exact absurd hb hs.2
    · intro q hq k hk
      rw [← hTBL] at hq ⊢
      rcases idxFoldName_mem _ cache.symbols_by_name [] q hq with h | ⟨nk, _, he⟩
      · simp at h
      · rw [he] at hk
        have := (List.mem_filter.mp hk).2
        simpa using this
    · intro q hq k hk
      rw [← hTBL] at hq ⊢
      rcases idxFoldFile_mem _ _ cache.symbols_by_file [] q hq with h | ⟨fk, _, he⟩
      · simp at h
      · rw [he] at hk
        have := (List.mem_filter.mp hk).2
        simpa using this

end Coderlm

namespace Coderlm

/-- Pre-save tree used by cache witnesses: one annotated, extracted file. -/
def wTreePre : FileTree :=
  ⟨[("a.rs", ⟨"a.rs", 12, 100, .Rust, some "core file", [.Test], true⟩)]⟩

/-- Fresh-walk tree over the same unchanged file (walker defaults:
no annotations, `symbols_extracted = false`). -/
def wFresh : FileTree :=
  ⟨[("a.rs", ⟨"a.rs", 12, 100, .Rust, none, [], false⟩)]⟩

/-- Pre-save symbol table used by cache witnesses. -/
def wTablePre : SymbolTable := SymbolTable.empty.insert wSym1

/-- Witness for C2 at a concrete one-file project. -/
theorem c2_cache_roundtrip_witness :
    (∀ kv ∈ wTreePre.files, kv.2.rel_path = kv.1) ∧
    (∀ p ∈ akeys wTreePre.files, p ∈ akeys wFresh.files) ∧
    (∃ out, load_index (save_index wTreePre wTablePre) wFresh
      FileTree.empty SymbolTable.empty = .ok out) := by
  have hwf0 : ∀ kv ∈ wTreePre.files, kv.2.rel_path = kv.1 := by decide
  have hmatch : ∀ kv ∈ wFresh.files, ∃ ce, alookup kv.1 wTreePre.files = some ce ∧
      ce.modified = kv.2.modified ∧ ce.size = kv.2.size := by
    intro kv hkv
    have hkv' : kv = ("a.rs", ⟨"a.rs", 12, 100, .Rust, none, [], false⟩) := by
      simpa [wFresh] using hkv
    subst hkv'
    exact ⟨⟨"a.rs", 12, 100, .Rust, some "core file", [.Test], true⟩, rfl, rfl, rfl⟩
  have hall : ∀ p ∈ akeys wTreePre.files, p ∈ akeys wFresh.files := by decide
  exact ⟨hwf0, hall, (c2_cache_roundtrip wTreePre wTablePre wFresh hwf0 hmatch hall).1⟩

/-- Witness for C3 at a concrete saved cache and fresh walk. -/
theorem c3_load_prunes_stale_witness :
    ((save_index wTreePre wTablePre).version = 1 ∧
      (akeys wFresh.files).Nodup ∧
      (akeys (save_index wTreePre wTablePre).symbols).Nodup ∧
      (∀ kv ∈ (save_index wTreePre wTablePre).symbols,
        (alookup kv.2.file (save_index wTreePre wTablePre).file_entries).isSome)) ∧
    (∃ out, load_index (save_index wTreePre wTablePre) wFresh
      FileTree.empty SymbolTable.empty = .ok out) := by
  refine ⟨⟨rfl, by decide, by decide, by decide⟩, ?_⟩
  exact (c3_load_prunes_stale (save_index wTreePre wTablePre) wFresh rfl (by decide)
    (by decide) (by decide)).1

end Coderlm

namespace Coderlm

/-! ## Application state (src/server/src/server/state.rs, session.rs) -/

/-- `AppError` (src/server/src/server/errors.rs · surfaced through state.rs). -/
inductive AppError where
  | NotFound (msg : String)
  | BadRequest (msg : String)
  | Gone (msg : String)
  | Internal (msg : String)
deriving DecidableEq, Repr

/-- `Project`: root path, trees, and the last-active timestamp (a `Nat`
instant; the watcher handle is an opaque resource and carries no state). -/
structure Project where
  root : String
  file_tree : FileTree
  symbol_table : SymbolTable
  last_active : Nat
deriving Repr

/-- `Session` (src/server/src/server/session.rs); history entries reduced to
`(method, path, response_preview)` with a `Nat` timestamp. -/
structure Session where
  id : String
  project_path : String
  created_at : Nat
  last_active : Nat
  history : List (Nat × String × String × String)
deriving DecidableEq, Repr

/-- `AppStateInner`: project and session maps plus limits. -/
structure AppState where
  projects : List (String × Project)
  sessions : List (String × Session)
  max_projects : Nat
  max_file_size : Nat

/-- `AppState::get_project_for_session`: `NotFound` for an unknown session id,
`Gone` when the session's project has been evicted. -/
def get_project_for_session (st : AppState) (session_id : String) :
    Except AppError Project :=
  match alookup session_id st.sessions with
  | none => .error (.NotFound ("Session '" ++ session_id ++ "' not found"))
  | some session =>
    match alookup session.project_path st.projects with
    | none => .error (.Gone ("Project at '" ++ session.project_path ++
        "' was evicted due to capacity limits. " ++
        "Start a new session to re-index, or increase --max-projects."))
    | some project => .ok project

/-- `iter().min_by_key(last_active)`: first project with the minimal
last-active timestamp. -/
def pickOldest (projects : List (String × Project)) : Option String :=
  (projects.foldl
    (fun acc entry =>
      match acc with
      | none => some entry
      | some best => if entry.2.last_active < best.2.last_active then some entry else some best)
    none).map (fun best => best.1)

/-- `AppState::evict_lru`: drop the least-recently-used project and every
session attached to it.  Returns the evicted root alongside the new state. -/
def evict_lru (st : AppState) : Except AppError (String × AppState) :=
  match pickOldest st.projects with
  | none => .error (.Internal "No projects to evict")
  | some path =>
    .ok (path,
      { st with
          projects := aremove path st.projects
          sessions := st.sessions.filter (fun s => s.2.project_path ≠ path) })

/-- C8: an unknown session id yields `NotFound`; a live session whose project
path is no longer registered yields `Gone` (a constructor distinct from
`NotFound`); and evicting a project removes it and every session whose
project path equals the evicted root. -/
theorem c8_session_errors_and_eviction :
    (∀ (st : AppState) (sid : String), alookup sid st.sessions = none →
      ∃ msg, get_project_for_session st sid = .error (.NotFound msg)) ∧
    (∀ (st : AppState) (sid : String) (session : Session),
      alookup sid st.sessions = some session →
      alookup session.project_path st.projects = none →
      ∃ msg, get_project_for_session st sid = .error (.Gone msg)) ∧
    (∀ msg msg', AppError.Gone msg ≠ AppError.NotFound msg') ∧
    (∀ (st : AppState) (path : String) (st' : AppState),
      evict_lru st = .ok (path, st') →
      alookup path st'.projects = none ∧
      (∀ s ∈ st'.sessions, s.2.project_path ≠ path)) := by
  refine ⟨?_, ?_, ?_, ?_⟩
  · intro st sid hnone
    simp only [get_project_for_session, hnone]
    exact ⟨_, rfl⟩
  · intro st sid session hs hp
    simp only [get_project_for_session, hs, hp]
    exact ⟨_, rfl⟩
  · intro msg msg' h
    exact AppError.noConfusion h
  · intro st path st' hev
    unfold evict_lru at hev
    cases hpk : pickOldest st.projects with
    | none =>
      rw [hpk] at hev
      simp at hev
    | some p =>
      rw [hpk] at hev
      dsimp only at hev
      injection hev with h1
      injection h1 with hpath hst
      subst hpath
      subst hst
      constructor
      · exact alookup_aremove_self _ _
      · intro s hs
        have := (List.mem_filter.mp hs).2
        simpa using this

/-- A concrete state used by the C8 witness: one stale session pointing at an
absent project, one live project. -/
def wProject : Project := ⟨"/p", FileTree.empty, SymbolTable.empty, 5⟩

def wSession : Session := ⟨"s1", "/gone", 0, 0, []⟩

def wState : AppState :=
  ⟨[("/p", wProject)], [("s1", wSession), ("s2", ⟨"s2", "/p", 0, 0, []⟩)], 2, 1000000⟩

/-- Witness for C8: the stale session gets `Gone`, an unknown id gets
`NotFound`, and evicting removes the project and its sessions. -/
theorem c8_session_errors_and_eviction_witness :
    (alookup "nope" wState.sessions = none ∧
      ∃ msg, get_project_for_session wState "nope" = .error (.NotFound msg)) ∧
    (alookup "s1" wState.sessions = some wSession ∧
      alookup wSession.project_path wState.projects = none ∧
      ∃ msg, get_project_for_session wState "s1" = .error (.Gone msg)) ∧
    (∀ st', evict_lru wState = .ok ("/p", st') →
      alookup "/p" st'.projects = none ∧ ∀ s ∈ st'.sessions, s.2.project_path ≠ "/p") := by
  obtain ⟨hnf, hgone, _, hev⟩ := c8_session_errors_and_eviction
  refine ⟨⟨rfl, hnf wState "nope" rfl⟩, ⟨rfl, rfl, hgone wState "s1" wSession rfl rfl⟩, ?_⟩
  intro st' h
  exact hev wState "/p" st' h

end Coderlm

namespace Coderlm

/-! ## Grep (src/server/src/ops/content.rs, `grep_with_scope`).
The compiled regex becomes `reFind : String → Option Nat` (`Regex::find` on a
line, returning the match offset; `is_match` is its `isSome`), the filesystem
becomes `fs : String → Option String`, and tree-sitter's comment/string ranges
(`compute_non_code_ranges`) become `ncr : String → Language → List (Nat × Nat)`.
Offsets and lengths count characters, the model's byte analogue. -/

inductive GrepScope where
  | All
  | Code
deriving DecidableEq, Repr

structure GrepMatch where
  file : String
  line : Nat
  text : String
  context_before : List String
  context_after : List String
deriving DecidableEq, Repr

/-- `GrepResponse` (the echoed `pattern` string is omitted: the model takes
the compiled regex, not its text; the source's `matches` field is called
`matchesList`, `matches` being a reserved Lean token). -/
structure GrepResponse where
  matchesList : List GrepMatch
  total_matches : Nat
  truncated : Bool
deriving Repr

/-- `is_in_excluded_range`: containment in one of the (sorted) ranges; on the
sorted range lists the source feeds it, its binary search decides exactly
containment. -/
def is_in_excluded_range (byte_offset : Nat) (ranges : List (Nat × Nat)) : Bool :=
  ranges.any (fun r => decide (r.1 ≤ byte_offset ∧ byte_offset < r.2))

/-- The per-line skip test of `grep_with_scope` (`scope = code`, nonempty
excluded ranges, match offset inside a range). -/
def lineSkip (reFind : String → Option Nat) (excluded : List (Nat × Nat))
    (scope : GrepScope) (line : String) (line_start : Nat) : Bool :=
  if scope = .Code ∧ excluded ≠ [] then
    match reFind line with
    | some m => is_in_excluded_range (line_start + m) excluded
    | none => false
  else false

/-- Build one `GrepMatch` with `context_lines` of context. -/
def mkGrepMatch (rel_path : String) (lines : List String) (ctx i : Nat)
    (line : String) : GrepMatch :=
  let ctx_start := i - ctx
  let ctx_end := min (i + ctx + 1) lines.length
  { file := rel_path
    line := i + 1
    text := line
    context_before := (lines.drop ctx_start).take (i - ctx_start)
    context_after := (lines.drop (i + 1)).take (ctx_end - (i + 1)) }

/-- The per-line loop of `grep_with_scope`: count every surviving match and
push the first `max_matches` of them. -/
def grepLines (reFind : String → Option Nat) (excluded : List (Nat × Nat))
    (scope : GrepScope) (rel_path : String) (allLines : List String)
    (max_matches ctx : Nat) :
    List String → Nat → Nat → Nat → List GrepMatch → Nat × List GrepMatch
  | [], _, _, total, acc => (total, acc)
  | line :: rest, i, offset, total, acc =>
    if (reFind line).isSome then
      if lineSkip reFind excluded scope line offset then
        grepLines reFind excluded scope rel_path allLines max_matches ctx rest
          (i + 1) (offset + line.length + 1) total acc
      else
        grepLines reFind excluded scope rel_path allLines max_matches ctx rest
          (i + 1) (offset + line.length + 1) (total + 1)
          (if acc.length < max_matches then
            acc ++ [mkGrepMatch rel_path allLines ctx i line]
          else acc)
    else
      grepLines reFind excluded scope rel_path allLines max_matches ctx rest
        (i + 1) (offset + line.length + 1) total acc

/-- The per-file loop of `grep_with_scope`: read each file (silently skipping
read failures), compute excluded ranges for code scope, scan the lines. -/
def grepFiles (fs : String → Option String) (reFind : String → Option Nat)
    (ncr : String → Language → List (Nat × Nat)) (max_matches ctx : Nat)
    (scope : GrepScope) :
    List (String × Language) → Nat → List GrepMatch → Nat × List GrepMatch
  | [], total, acc => (total, acc)
  | (rel_path, language) :: rest, total, acc =>
    match fs rel_path with
    | none => grepFiles fs reFind ncr max_matches ctx scope rest total acc
    | some source =>
      let excluded :=
        if scope = .Code ∧ language.has_tree_sitter_support then ncr source language else []
      let lines := rustLines source
      let r := grepLines reFind excluded scope rel_path lines max_matches ctx
        lines 0 0 total acc
      grepFiles fs reFind ncr max_matches ctx scope rest r.1 r.2

/-- Stable insertion into a path-sorted list (`sort_by` on the path). -/
def insertSorted (p : String × Language) : List (String × Language) → List (String × Language)
  | [] => [p]
  | q :: rest => if p.1 ≤ q.1 then p :: q :: rest else q :: insertSorted p rest

/-- `paths.sort_by(|a, b| a.0.cmp(&b.0))`. -/
def sortPairs : List (String × Language) → List (String × Language)
  | [] => []
  | p :: rest => insertSorted p (sortPairs rest)

/-- `grep_with_scope` (the regex is already compiled; an invalid pattern is
rejected before this point). -/
def grep_with_scope (fs : String → Option String) (reFind : String → Option Nat)
    (ncr : String → Language → List (Nat × Nat)) (file_tree : FileTree)
    (max_matches context_lines : Nat) (scope : GrepScope) : GrepResponse :=
  let paths := sortPairs (file_tree.files.map (fun e => (e.1, e.2.language)))
  let r := grepFiles fs reFind ncr max_matches context_lines scope paths 0 []
  { matchesList := r.2, total_matches := r.1, truncated := decide (r.1 > max_matches) }

/-- The full (uncapped) list of surviving matches of one file's lines. -/
def grepHitsLines (reFind : String → Option Nat) (excluded : List (Nat × Nat))
    (scope : GrepScope) (rel_path : String) (allLines : List String) (ctx : Nat) :
    List String → Nat → Nat → List GrepMatch
  | [], _, _ => []
  | line :: rest, i, offset =>
    let tail := grepHitsLines reFind excluded scope rel_path allLines ctx rest
      (i + 1) (offset + line.length + 1)
    if (reFind line).isSome then
      if lineSkip reFind excluded scope line offset then tail
      else mkGrepMatch rel_path allLines ctx i line :: tail
    else tail

/-- The full (uncapped) list of surviving matches across files. -/
def grepHitsFiles (fs : String → Option String) (reFind : String → Option Nat)
    (ncr : String → Language → List (Nat × Nat)) (ctx : Nat) (scope : GrepScope) :
    List (String × Language) → List GrepMatch
  | [] => []
  | (rel_path, language) :: rest =>
    (match fs rel_path with
     | none => []
     | some source =>
       let excluded :=
         if scope = .Code ∧ language.has_tree_sitter_support then ncr source language else []
       let lines := rustLines source
       grepHitsLines reFind excluded scope rel_path lines ctx lines 0 0) ++
    grepHitsFiles fs reFind ncr ctx scope rest

end Coderlm

namespace Coderlm

/-- The line loop returns the uncapped count and appends the first
`max_matches - acc.length` uncapped hits. -/
theorem grepLines_spec (reFind : String → Option Nat) (excluded : List (Nat × Nat))
    (scope : GrepScope) (rel_path : String) (allLines : List String)
    (max_matches ctx : Nat) :
    ∀ (ls : List String) (i offset total : Nat) (acc : List GrepMatch),
      grepLines reFind excluded scope rel_path allLines max_matches ctx ls i offset total acc =
        (total + (grepHitsLines reFind excluded scope rel_path allLines ctx ls i offset).length,
          acc ++ (grepHitsLines reFind excluded scope rel_path allLines ctx ls i offset).take
            (max_matches - acc.length)) := by
  intro ls
  induction ls with
  | nil =>
    intro i offset total acc
    simp [grepLines, grepHitsLines]
  | cons line rest ih =>
    intro i offset total acc
    rw [grepLines, grepHitsLines]
    by_cases hm : (reFind line).isSome
    · rw [if_pos hm, if_pos hm]
      by_cases hsk : lineSkip reFind excluded scope line offset
      · rw [if_pos hsk, if_pos hsk]
        exact ih (i + 1) (offset + line.length + 1) total acc
      · rw [if_neg hsk, if_neg hsk]
        rw [ih (i + 1) (offset + line.length + 1) (total + 1) _]
        refine congrArg₂ _ ?_ ?_
        · rw [List.length_cons]
          omega
        · by_cases hlen : acc.length < max_matches
          · rw [if_pos hlen]
            rw [List.length_append, List.length_singleton]
            have hmm : max_matches - acc.length = (max_matches - (acc.length + 1)) + 1 := by
              omega
            rw [hmm, List.take_succ_cons, List.append_assoc]
            rfl
          · rw [if_neg hlen]
            have h0 : max_matches - acc.length = 0 := by omega
            simp [h0]
    · rw [if_neg hm, if_neg hm]
      exact ih (i + 1) (offset + line.length + 1) total acc

/-- The file loop returns the uncapped count and appends the first
`max_matches - acc.length` uncapped hits. -/
theorem grepFiles_spec (fs : String → Option String) (reFind : String → Option Nat)
    (ncr : String → Language → List (Nat × Nat)) (max_matches ctx : Nat)
    (scope : GrepScope) :
    ∀ (fl : List (String × Language)) (total : Nat) (acc : List GrepMatch),
      grepFiles fs reFind ncr max_matches ctx scope fl total acc =
        (total + (grepHitsFiles fs reFind ncr ctx scope fl).length,
          acc ++ (grepHitsFiles fs reFind ncr ctx scope fl).take
            (max_matches - acc.length)) := by
  intro fl
  induction fl with
  | nil =>
    intro total acc
    simp [grepFiles, grepHitsFiles]
  | cons pl rest ih =>
    intro total acc
    obtain ⟨rel_path, language⟩ := pl
    rw [grepFiles, grepHitsFiles]
    cases hfs : fs rel_path with
    | none =>
      rw [ih total acc]
      simp
    | some source =>
      dsimp only
      rw [grepLines_spec]
      dsimp only
      rw [ih]
      rw [Prod.mk.injEq]
      constructor
      · rw [List.length_append]
        omega
      · rw [List.take_append_eq_append_take, ← List.append_assoc]
        congr 1
        congr 1
        simp only [List.length_append, List.length_take]
        omega

/-- Per line, the code-scoped hits form a sublist of the all-scoped hits. -/
theorem grepHitsLines_sublist (reFind : String → Option Nat)
    (excluded excluded2 : List (Nat × Nat)) (rel_path : String)
    (allLines : List String) (ctx : Nat) :
    ∀ (ls : List String) (i offset : Nat),
      List.Sublist
        (grepHitsLines reFind excluded .Code rel_path allLines ctx ls i offset)
        (grepHitsLines reFind excluded2 .All rel_path allLines ctx ls i offset) := by
  intro ls
  induction ls with
  | nil =>
    intro i offset
    exact List.Sublist.refl _
  | cons line rest ih =>
    intro i offset
    rw [grepHitsLines, grepHitsLines]
    by_cases hm : (reFind line).isSome
    · rw [if_pos hm, if_pos hm]
      have hskA : lineSkip reFind excluded2 .All line offset = false := by
        unfold lineSkip
        rw [if_neg (by simp)]
      rw [hskA]
      simp only [Bool.false_eq_true, if_false]
      by_cases hsk : lineSkip reFind excluded .Code line offset
      · rw [if_pos hsk]
        exact List.Sublist.cons _ (ih (i + 1) (offset + line.length + 1))
      · rw [if_neg hsk]
        exact List.Sublist.cons₂ _ (ih (i + 1) (offset + line.length + 1))
    · rw [if_neg hm, if_neg hm]
      exact ih (i + 1) (offset + line.length + 1)

/-- Across files, the code-scoped hits form a sublist of the all-scoped hits. -/
theorem grepHitsFiles_sublist (fs : String → Option String)
    (reFind : String → Option Nat) (ncr : String → Language → List (Nat × Nat))
    (ctx : Nat) :
    ∀ (fl : List (String × Language)),
      List.Sublist (grepHitsFiles fs reFind ncr ctx .Code fl)
        (grepHitsFiles fs reFind ncr ctx .All fl) := by
  intro fl
  induction fl with
  | nil => exact List.Sublist.refl _
  | cons pl rest ih =>
    obtain ⟨rel_path, language⟩ := pl
    rw [grepHitsFiles, grepHitsFiles]
    cases hfs : fs rel_path with
    | none =>
      dsimp only
      exact List.Sublist.append (List.Sublist.refl _) ih
    | some source =>
      dsimp only
      exact List.Sublist.append (grepHitsLines_sublist _ _ _ _ _ _ _ _ _) ih

end Coderlm

namespace Coderlm

/-- C4 (amended): code-scoped grep's total (uncapped) match count never
exceeds the all-scope total; and whenever the all-scope result is not
truncated (`total_matches ≤ max_matches`), every returned code-scope match
(identified by file, line and text) also appears among the returned all-scope
matches.  (The unrestricted subset claim is false under truncation, see the
counterexample.) -/
theorem c4_grep_code_subset (fs : String → Option String) (re : String → Option Nat)
    (ncr : String → Language → List (Nat × Nat)) (file_tree : FileTree)
    (max_matches context_lines : Nat) :
    (grep_with_scope fs re ncr file_tree max_matches context_lines .Code).total_matches ≤
      (grep_with_scope fs re ncr file_tree max_matches context_lines .All).total_matches ∧
    ((grep_with_scope fs re ncr file_tree max_matches context_lines .All).total_matches ≤
        max_matches →
      ∀ m ∈ (grep_with_scope fs re ncr file_tree max_matches context_lines .Code).matchesList,
        ∃ m' ∈ (grep_with_scope fs re ncr file_tree max_matches
            context_lines .All).matchesList,
          m'.file = m.file ∧ m'.line = m.line ∧ m'.text = m.text) := by
  have hsub := grepHitsFiles_sublist fs re ncr context_lines
    (sortPairs (file_tree.files.map (fun e => (e.1, e.2.language))))
  have hCt : (grep_with_scope fs re ncr file_tree max_matches context_lines
      .Code).total_matches =
      0 + (grepHitsFiles fs re ncr context_lines .Code
        (sortPairs (file_tree.files.map (fun e => (e.1, e.2.language))))).length := by
    unfold grep_with_scope
    dsimp only
    rw [grepFiles_spec]
  have hAt : (grep_with_scope fs re ncr file_tree max_matches context_lines
      .All).total_matches =
      0 + (grepHitsFiles fs re ncr context_lines .All
        (sortPairs (file_tree.files.map (fun e => (e.1, e.2.language))))).length := by
    unfold grep_with_scope
    dsimp only
    rw [grepFiles_spec]
  have hCm : (grep_with_scope fs re ncr file_tree max_matches context_lines
      .Code).matchesList =
      (grepHitsFiles fs re ncr context_lines .Code
        (sortPairs (file_tree.files.map (fun e => (e.1, e.2.language))))).take
          max_matches := by
    unfold grep_with_scope
    dsimp only
    rw [grepFiles_spec]
    simp
  have hAm : (grep_with_scope fs re ncr file_tree max_matches context_lines
      .All).matchesList =
      (grepHitsFiles fs re ncr context_lines .All
        (sortPairs (file_tree.files.map (fun e => (e.1, e.2.language))))).take
          max_matches := by
    unfold grep_with_scope
    dsimp only
    rw [grepFiles_spec]
    simp
  constructor
  · rw [hCt, hAt]
    have := List.Sublist.length_le hsub
    omega
  · intro htr m hm
    rw [hAt] at htr
    rw [hCm] at hm
    have hmC : m ∈ grepHitsFiles fs re ncr context_lines .Code
        (sortPairs (file_tree.files.map (fun e => (e.1, e.2.language)))) :=
      List.take_subset _ _ hm
    have hmA := List.Sublist.subset hsub hmC
    refine ⟨m, ?_, rfl, rfl, rfl⟩
    rw [hAm, List.take_of_length_le (by omega)]
    exact hmA

/-- Naive literal-substring search over characters: the concrete "compiled
regex" used by the C4 witnesses (`Regex::find` for a literal pattern). -/
def findSubAux (pat : List Char) : List Char → Nat → Option Nat
  | [], i => if pat.isEmpty then some i else none
  | c :: rest, i =>
    if pat.isPrefixOf (c :: rest) then some i else findSubAux pat rest (i + 1)

/-- `Regex::find` for the literal pattern `TODO`. -/
def cexRe (line : String) : Option Nat := findSubAux "TODO".data line.data 0

/-- One-file filesystem: `m.rs` holds a comment line and a code line. -/
def cexFs (p : String) : Option String :=
  if p = "m.rs" then some "// TODO\nTODO" else none

/-- Modelled from the spec: `compute_non_code_ranges` is tree-sitter driven
("compute a sorted array of byte ranges covering comment and string AST
nodes"); for this Rust source the line comment `// TODO` spans bytes
`[0, 7)`. -/
def cexNcr (src : String) (lang : Language) : List (Nat × Nat) :=
  if src = "// TODO\nTODO" ∧ lang = Language.Rust then [(0, 7)] else []

def cexTree : FileTree := ⟨[("m.rs", ⟨"m.rs", 12, 100, .Rust, none, [], true⟩)]⟩

/-- C4 (counterexample): with `max_matches = 1` the all-scope result is
truncated to the comment-line match, while code scope skips it and returns
the code-line match — which is then not among the all-scope matches, so the
claimed subset inclusion fails. -/
theorem c4_counterexample :
    ¬ (∀ m ∈ (grep_with_scope cexFs cexRe cexNcr cexTree 1 0 .Code).matchesList,
        ∃ m' ∈ (grep_with_scope cexFs cexRe cexNcr cexTree 1 0 .All).matchesList,
          m'.file = m.file ∧ m'.line = m.line ∧ m'.text = m.text) := by
  decide

/-- Witness for the amended C4: same inputs without truncation
(`max_matches = 10`). -/
theorem c4_grep_code_subset_witness :
    ((grep_with_scope cexFs cexRe cexNcr cexTree 10 0 .All).total_matches ≤ 10) ∧
    ((grep_with_scope cexFs cexRe cexNcr cexTree 10 0 .Code).total_matches ≤
      (grep_with_scope cexFs cexRe cexNcr cexTree 10 0 .All).total_matches) ∧
    (∀ m ∈ (grep_with_scope cexFs cexRe cexNcr cexTree 10 0 .Code).matchesList,
      ∃ m' ∈ (grep_with_scope cexFs cexRe cexNcr cexTree 10 0 .All).matchesList,
        m'.file = m.file ∧ m'.line = m.line ∧ m'.text = m.text) := by
  have h := c4_grep_code_subset cexFs cexRe cexNcr cexTree 10 0
  have htr : (grep_with_scope cexFs cexRe cexNcr cexTree 10 0 .All).total_matches ≤ 10 := by
    decide
  exact ⟨htr, h.1, h.2 htr⟩

end Coderlm
